import Mathlib

/-!
Minishell: tokenizer and expression execution.

A shallow embedding of `src/tokenize.c` and
`src/execution/exec_line/exec_expression.c`.

Conventions of the embedding.

* A C string is the list of its characters before the terminating NUL; the
  empty list is a pointer at the NUL.  Advancing a `char *` is taking the tail.
* `int` and `size_t` counters are natural numbers (lines are far shorter than
  `2^31` characters, so no counter wraps).
* `malloc` succeeds.
* A function that can end the process returns an `Outcome`.
* The functions that `exec_expression.c` calls and that other files define,
  and the system calls, answer through a record `Extern`; a run is the list
  of the calls made and the way the process leaves the function.
-/

namespace Minishell

/-- The single quote character. -/
def SQUOTE : Char := Char.ofNat 39

/-- The double quote character. -/
def DQUOTE : Char := Char.ofNat 34

/-- The terminating character of a C string. -/
def NUL : Char := Char.ofNat 0

/-- Value of `EXIT_FAILURE` in `stdlib.h`. -/
def EXIT_FAILURE : Nat := 1

/-- How a call ends: it returns a value to its caller, it ends the whole
process through `exit` after printing `out`, it touches memory outside an
object (undefined behaviour), or it is still running when the step budget
of the model is used up. -/
inductive Outcome (α : Type) where
  | ret (v : α)
  | exit (out : String) (status : Nat)
  | fault
  | timeout
  deriving DecidableEq, Repr

/-- Sequencing of two calls: the second runs only if the first returned. -/
def Outcome.bind {α β : Type} (o : Outcome α) (f : α → Outcome β) : Outcome β :=
  match o with
  | Outcome.ret v => f v
  | Outcome.exit out status => Outcome.exit out status
  | Outcome.fault => Outcome.fault
  | Outcome.timeout => Outcome.timeout

/-- A node of the token list (`t_token`); the list itself is a Lean list, and
the field `ttype`, which `tokenize.c` never writes, is left out. -/
structure t_token where
  element : List Char
  deriving DecidableEq, Repr

/-- Embeds `create_new_token`: a fresh node holding a copy of `element`. -/
def create_new_token (element : List Char) : t_token :=
  { element := element }

/-- Loop of `compute_len`: `rest` is `element + len`, the flags count the
quotes met so far. -/
def compute_len_loop : List Char → Nat → Nat → Nat → Nat
  | [], len, _, _ => len
  | c :: rest, len, flag_double_quotes, flag_single_quotes =>
    if c = ' ' ∧ flag_double_quotes % 2 = 0 ∧ flag_single_quotes % 2 = 0 then
      len
    else
      let fd := if c = DQUOTE ∧ flag_single_quotes % 2 = 0
        then flag_double_quotes + 1 else flag_double_quotes
      let fs := if c = SQUOTE ∧ fd % 2 = 0
        then flag_single_quotes + 1 else flag_single_quotes
      compute_len_loop rest (len + 1) fd fs

/-- Embeds `compute_len`. -/
def compute_len (element : List Char) : Nat :=
  compute_len_loop element 0 0 0

/-- Embeds `get_element`: the first `compute_len line` characters of `line`. -/
def get_element (line : List Char) : List Char :=
  line.take (compute_len line)

/-- Embeds `add_token`.  `has_a_variable` is defined in no source at hand, and
the body of `replace_in_line` in `tokenize.c` is unfinished (it builds no
string and has no `return`): the test and the pointer that the call gives
back are parameters.  The result is the new line pointer and the token
list. -/
def add_token (has_a_variable : List Char → Bool)
    (replace_in_line : List Char → List Char)
    (line : List Char) (tokenlist : List t_token) : List Char × List t_token :=
  let element := get_element line
  let elementlen := element.length
  if has_a_variable element then
    (replace_in_line line, tokenlist)
  else
    match tokenlist with
    | [] => (line.drop elementlen, [create_new_token element])
    | _ :: _ =>
      if has_a_variable element then
        (replace_in_line line, tokenlist)
      else
        (line.drop elementlen, tokenlist ++ [create_new_token element])

/-- Loop of `count_del_quotes`: the two counters after the whole string. -/
def count_del_quotes_loop : List Char → Nat → Nat → Nat × Nat
  | [], single_quote, double_quote => (single_quote, double_quote)
  | c :: rest, single_quote, double_quote =>
    let sq := if c = SQUOTE ∧ double_quote % 2 = 0
      then single_quote + 1 else single_quote
    let dq := if c = DQUOTE ∧ sq % 2 = 0
      then double_quote + 1 else double_quote
    count_del_quotes_loop rest sq dq

/-- Embeds `count_del_quotes`: the number of delimiting quotes, or the end
of the process when one of the two counters is odd. -/
def count_del_quotes (element : List Char) : Outcome Nat :=
  let r := count_del_quotes_loop element 0 0
  if r.1 % 2 ≠ 0 ∨ r.2 % 2 ≠ 0 then
    Outcome.exit "Error: Unmatched quotes\n" EXIT_FAILURE
  else
    Outcome.ret (r.1 + r.2)

/-- What a read of `element[k]` finds: a character of the string, the NUL
that ends it, or a byte past that NUL (outside the string). -/
inductive Cell where
  | chr (c : Char)
  | nul
  | outside
  deriving DecidableEq, Repr

/-- Reading `element[k]`. -/
def read_at (element : List Char) (k : Nat) : Cell :=
  match element.get? k with
  | some c => Cell.chr c
  | none => if k = element.length then Cell.nul else Cell.outside

/-- State of the loops of `clean_up_quotes`: the two indices and the
characters written to `new_element` so far. -/
structure clean_state where
  i : Nat
  j : Nat
  new_element : List Char
  deriving DecidableEq, Repr

/-- One execution of `new_element[j++] = c` followed by `i++`, in a buffer of
`size` bytes. -/
def clean_state.put (s : clean_state) (size : Nat) (c : Char) : Outcome clean_state :=
  if s.j < size then
    Outcome.ret { i := s.i + 1, j := s.j + 1, new_element := s.new_element ++ [c] }
  else Outcome.fault

/-- Inner loop of `clean_up_quotes` for the quote character `q`:
`while (element[j] && element[i] != q) new_element[j++] = element[i++];`
where `size` is the size of the buffer `new_element`. -/
def clean_up_quotes_copy (element : List Char) (size : Nat) (q : Char) :
    Nat → clean_state → Outcome clean_state
  | 0, _ => Outcome.timeout
  | fuel + 1, s =>
    match read_at element s.j with
    | Cell.outside => Outcome.fault
    | Cell.nul => Outcome.ret s
    | Cell.chr _ =>
      match read_at element s.i with
      | Cell.outside => Outcome.fault
      | Cell.nul =>
        (s.put size NUL).bind (clean_up_quotes_copy element size q fuel)
      | Cell.chr ci =>
        if ci = q then Outcome.ret s
        else (s.put size ci).bind (clean_up_quotes_copy element size q fuel)

/-- Outer loop of `clean_up_quotes`. -/
def clean_up_quotes_loop (element : List Char) (size : Nat) :
    Nat → clean_state → Outcome clean_state
  | 0, _ => Outcome.timeout
  | fuel + 1, s =>
    match read_at element s.i with
    | Cell.outside => Outcome.fault
    | Cell.nul => Outcome.ret s
    | Cell.chr ci =>
      if ci = SQUOTE then
        (clean_up_quotes_copy element size SQUOTE fuel { s with i := s.i + 1 }).bind
          fun s1 => clean_up_quotes_loop element size fuel { s1 with i := s1.i + 1 }
      else if ci = DQUOTE then
        (clean_up_quotes_copy element size DQUOTE fuel { s with i := s.i + 1 }).bind
          fun s1 => clean_up_quotes_loop element size fuel { s1 with i := s1.i + 1 }
      else
        (s.put size ci).bind (clean_up_quotes_loop element size fuel)

/-- Embeds `clean_up_quotes`: the buffer has `strlen(element) - quotes_count + 1`
bytes, the loops fill it and the final NUL is written at index `j`. -/
def clean_up_quotes (element : List Char) : Outcome (List Char) :=
  (count_del_quotes element).bind fun quotes_count =>
    let size := element.length - quotes_count + 1
    (clean_up_quotes_loop element size (element.length + 2)
        { i := 0, j := 0, new_element := [] }).bind fun s =>
      if s.j < size then Outcome.ret s.new_element else Outcome.fault

/-- Indices of `element` read by the guard of the inner loop of
`clean_up_quotes`, in the order of the reads.  It follows
`clean_up_quotes_copy` step by step: `element[j]` is read first, `element[i]`
only when `element[j]` is not NUL. -/
def clean_up_quotes_copy_reads (element : List Char) (size : Nat) (q : Char) :
    Nat → clean_state → List Nat
  | 0, _ => []
  | fuel + 1, s =>
    match read_at element s.j with
    | Cell.outside => [s.j]
    | Cell.nul => [s.j]
    | Cell.chr _ =>
      match read_at element s.i with
      | Cell.outside => [s.j, s.i]
      | Cell.nul =>
        s.j :: s.i ::
          (match s.put size NUL with
            | Outcome.ret s1 => clean_up_quotes_copy_reads element size q fuel s1
            | _ => [])
      | Cell.chr ci =>
        if ci = q then [s.j, s.i]
        else
          s.j :: s.i ::
            (match s.put size ci with
              | Outcome.ret s1 => clean_up_quotes_copy_reads element size q fuel s1
              | _ => [])

/-- Indices read by the inner loops during a run of the outer loop of
`clean_up_quotes`.  It follows `clean_up_quotes_loop` step by step. -/
def clean_up_quotes_loop_reads (element : List Char) (size : Nat) :
    Nat → clean_state → List Nat
  | 0, _ => []
  | fuel + 1, s =>
    match read_at element s.i with
    | Cell.outside => []
    | Cell.nul => []
    | Cell.chr ci =>
      if ci = SQUOTE then
        clean_up_quotes_copy_reads element size SQUOTE fuel { s with i := s.i + 1 }
          ++ (match clean_up_quotes_copy element size SQUOTE fuel { s with i := s.i + 1 } with
              | Outcome.ret s1 =>
                clean_up_quotes_loop_reads element size fuel { s1 with i := s1.i + 1 }
              | _ => [])
      else if ci = DQUOTE then
        clean_up_quotes_copy_reads element size DQUOTE fuel { s with i := s.i + 1 }
          ++ (match clean_up_quotes_copy element size DQUOTE fuel { s with i := s.i + 1 } with
              | Outcome.ret s1 =>
                clean_up_quotes_loop_reads element size fuel { s1 with i := s1.i + 1 }
              | _ => [])
      else
        match s.put size ci with
        | Outcome.ret s1 => clean_up_quotes_loop_reads element size fuel s1
        | _ => []

/-- Indices read by the inner loops during a call of `clean_up_quotes`. -/
def clean_up_quotes_inner_reads (element : List Char) : List Nat :=
  match count_del_quotes element with
  | Outcome.ret quotes_count =>
    clean_up_quotes_loop_reads element (element.length - quotes_count + 1)
      (element.length + 2) { i := 0, j := 0, new_element := [] }
  | _ => []

/-- Embeds `clean_up_tokens`: every element is replaced by its cleaned form,
up to the first element that is exactly two double quotes, where the function
returns. -/
def clean_up_tokens : List t_token → Outcome (List t_token)
  | [] => Outcome.ret []
  | tmp :: next =>
    if tmp.element = [DQUOTE, DQUOTE] then Outcome.ret (tmp :: next)
    else
      (clean_up_quotes tmp.element).bind fun e =>
        (clean_up_tokens next).bind fun r =>
          Outcome.ret ({ tmp with element := e } :: r)

/-- The test of `tokenize` that starts a token: the character is not in
`\t..\r` and is not a space. -/
def starts_token (c : Char) : Prop :=
  (c.toNat < 9 ∨ 13 < c.toNat) ∧ c ≠ ' '

instance (c : Char) : Decidable (starts_token c) := by
  unfold starts_token; infer_instance

/-- Loop of `tokenize`: one unit of `fuel` per iteration. -/
def tokenize_loop (has_a_variable : List Char → Bool)
    (replace_in_line : List Char → List Char) :
    Nat → List Char → List t_token → Outcome (List t_token)
  | 0, _, _ => Outcome.timeout
  | _ + 1, [], tokenlist => Outcome.ret tokenlist
  | fuel + 1, c :: rest, tokenlist =>
    if starts_token c then
      let r := add_token has_a_variable replace_in_line (c :: rest) tokenlist
      tokenize_loop has_a_variable replace_in_line fuel r.1 r.2
    else
      tokenize_loop has_a_variable replace_in_line fuel rest tokenlist

/-- Embeds `tokenize`. -/
def tokenize (has_a_variable : List Char → Bool)
    (replace_in_line : List Char → List Char)
    (fuel : Nat) (line : List Char) : Outcome (List t_token) :=
  (tokenize_loop has_a_variable replace_in_line fuel line []).bind clean_up_tokens

/-! ## Execution of one expression (`exec_expression.c`) -/

/-- Values of the enumeration `t_type`. -/
inductive t_type where
  | COMMAND
  | META_CHAR
  | BUILTIN
  deriving DecidableEq, Repr

/-- How a call of `exec_builtins` ends: it returns, leaving a value in
`g_status`, or it ends the process. -/
inductive builtin_end where
  | returns (g_status : Int)
  | exits (status : Int)
  deriving DecidableEq, Repr

/-- The answers, during one call of `exec_expression`, of the system calls and
of the functions of the repository that `exec_expression.c` calls and that
are defined in other files. -/
structure Extern where
  /-- Result of `check_and_exec_single_builtin(tokenlist, data, args)`. -/
  check_and_exec_single_builtin : Bool
  /-- Value of `fork()` in the process that is followed. -/
  fork : Int
  /-- Result of `cut_arrays_into_expression(args, index)`. -/
  cut_arrays_into_expression : List (List Char) → Int → List (List Char)
  /-- Result of `get_path_cmd(bin_paths, word)`. -/
  get_path_cmd : Option (List Char) → Option (List Char)
  /-- Result of `configure_io(tokenlist, index, data)`. -/
  configure_io : Int → Bool
  /-- Result of `type(word, env)`. -/
  type : Option (List Char) → t_type
  /-- End of `exec_builtins(tokenlist, data, expression, args)`. -/
  exec_builtins : List (List Char) → builtin_end
  /-- Value of `g_status` after `print_not_found(word, NULL)`. -/
  print_not_found : Option (List Char) → Int
  /-- Result of `env_list_to_array(env)`. -/
  env_list_to_array : List (List Char)
  /-- Whether `execve` comes back, which it does only when it fails. -/
  execve_fails : Bool
  /-- Whether `access(cmd, X_OK)` is 0. -/
  access_x_ok : List Char → Bool

/-- The calls that `exec_expression.c` makes outside itself, memory release
apart. -/
inductive Event where
  | check_and_exec_single_builtin
  | fork
  | signal_sigint_ign
  | configure_io (index : Int)
  | exec_builtins (expression : List (List Char))
  | execve (path_cmd : Option (List Char)) (argv envp : List (List Char))
  | print_not_found (word : Option (List Char))
  | close_all_pipes
  deriving DecidableEq, Repr

/-- How the followed process leaves a function: it returns a value, it ends
through `exit`, its image is replaced by a successful `execve`, or it touches
memory outside an object (undefined behaviour). -/
inductive Ending (α : Type) where
  | returned (v : α)
  | exited (status : Int)
  | replaced
  | fault
  deriving DecidableEq, Repr

/-- A run of a function: the calls made, in order, and how it ends. -/
structure Run (α : Type) where
  events : List Event
  ending : Ending α

/-- Embeds `exec_command`: `execve`, then `g_status = 1; exit(g_status)` if it
comes back. -/
def exec_command (x : Extern) (path_cmd : Option (List Char))
    (expression env : List (List Char)) : Run Unit :=
  { events := [Event.execve path_cmd expression env],
    ending := if x.execve_fails then Ending.exited 1 else Ending.replaced }

/-- Embeds `process_invalid`: `print_not_found(expression[0], NULL)`, then
`exit(g_status)`. -/
def process_invalid (x : Extern) (expression : List (List Char)) : Run Unit :=
  { events := [Event.print_not_found expression.head?],
    ending := Ending.exited (x.print_not_found expression.head?) }

/-- The string `"/minishell"`. -/
def SLASH_MINISHELL : List Char := ['/', 'm', 'i', 'n', 'i', 's', 'h', 'e', 'l', 'l']

/-- The pointer `cmd + offset` read as a string: the characters of `cmd` from
`offset` on.  An offset below zero (a wrapped one, if the lengths are
unsigned) or past the terminating NUL leaves the string: a fault. -/
def string_at (cmd : List Char) (offset : Int) : Outcome (List Char) :=
  if 0 ≤ offset ∧ offset ≤ (cmd.length : Int) then Outcome.ret (cmd.drop offset.toNat)
  else Outcome.fault

/-- Embeds `is_minishell`; `none` is the null pointer.  The right operand of
`&&` is evaluated only when `access` answers 0. -/
def is_minishell (x : Extern) (cmd : Option (List Char)) : Outcome Bool :=
  match cmd with
  | none => Outcome.ret false
  | some cmd =>
    if cmd.length < SLASH_MINISHELL.length then Outcome.ret false
    else if x.access_x_ok cmd = true then
      (string_at cmd ((cmd.length : Int) - (SLASH_MINISHELL.length : Int))).bind fun tail =>
        if tail = SLASH_MINISHELL then Outcome.ret true else Outcome.ret false
    else Outcome.ret false

/-- Embeds `execute_child_process`.  When the function returns, the value is
that of `g_status`, set to 1 by its last statement. -/
def execute_child_process (x : Extern) (index : Int) (args : List (List Char)) : Run Int :=
  let expression := x.cut_arrays_into_expression args index
  let path_cmd := x.get_path_cmd expression.head?
  if x.configure_io index then
    if x.type expression.head? = t_type.BUILTIN then
      match x.exec_builtins expression with
      | builtin_end.returns _ =>
        { events := [Event.configure_io index, Event.exec_builtins expression],
          ending := Ending.returned 1 }
      | builtin_end.exits status =>
        { events := [Event.configure_io index, Event.exec_builtins expression],
          ending := Ending.exited status }
    else if x.type expression.head? = t_type.COMMAND then
      let r := exec_command x path_cmd expression x.env_list_to_array
      { events := Event.configure_io index :: r.events,
        ending := match r.ending with
          | Ending.returned _ => Ending.returned 1
          | Ending.exited status => Ending.exited status
          | Ending.replaced => Ending.replaced
          | Ending.fault => Ending.fault }
    else
      let r := process_invalid x expression
      { events := Event.configure_io index :: r.events,
        ending := match r.ending with
          | Ending.returned _ => Ending.returned 1
          | Ending.exited status => Ending.exited status
          | Ending.replaced => Ending.replaced
          | Ending.fault => Ending.fault }
  else
    { events := [Event.configure_io index, Event.close_all_pipes],
      ending := Ending.returned 1 }

/-- Embeds `exec_expression`, in the process for which `fork` answers
`x.fork`.  The value returned is `none` when `pid_right` was never
assigned. -/
def exec_expression (x : Extern) (nb_pipe index : Int) (args : List (List Char)) :
    Run (Option Int) :=
  if x.check_and_exec_single_builtin then
    { events := [Event.check_and_exec_single_builtin], ending := Ending.returned (some 0) }
  else
    let pid := x.fork
    let pid_right : Option Int := if nb_pipe = index then some pid else none
    if pid = 0 then
      let r := execute_child_process x index args
      { events := Event.check_and_exec_single_builtin :: Event.fork :: r.events,
        ending := match r.ending with
          | Ending.returned g_status => Ending.exited g_status
          | Ending.exited status => Ending.exited status
          | Ending.replaced => Ending.replaced
          | Ending.fault => Ending.fault }
    else if 0 < pid then
      match is_minishell x args.head? with
      | Outcome.ret true =>
        { events := [Event.check_and_exec_single_builtin, Event.fork,
            Event.signal_sigint_ign],
          ending := Ending.returned pid_right }
      | Outcome.ret false =>
        { events := [Event.check_and_exec_single_builtin, Event.fork],
          ending := Ending.returned pid_right }
      | _ =>
        { events := [Event.check_and_exec_single_builtin, Event.fork],
          ending := Ending.fault }
    else
      { events := [Event.check_and_exec_single_builtin, Event.fork],
        ending := Ending.returned pid_right }

/-- Answers for the line `cd /tmp`: a single builtin, run by
`check_and_exec_single_builtin`. -/
def single_builtin_answers : Extern where
  check_and_exec_single_builtin := true
  fork := 42
  cut_arrays_into_expression := fun a _ => a
  get_path_cmd := fun _ => none
  configure_io := fun _ => true
  type := fun _ => t_type.BUILTIN
  exec_builtins := fun _ => builtin_end.returns 0
  print_not_found := fun _ => 1
  env_list_to_array := []
  execve_fails := true
  access_x_ok := fun _ => false

/-- Answers in the child forked for a stage of the line `echo hi | wc`:
stage 0 is the builtin `echo hi`, stage 1 the program `wc`, found at
`/bin/wc`; the builtin leaves 0 in `g_status`, and `execve` comes back. -/
def child_answers : Extern where
  check_and_exec_single_builtin := false
  fork := 0
  cut_arrays_into_expression := fun _ index =>
    if index = 0 then [['e', 'c', 'h', 'o'], ['h', 'i']] else [['w', 'c']]
  get_path_cmd := fun word =>
    if word = some ['w', 'c'] then some ['/', 'b', 'i', 'n', '/', 'w', 'c'] else none
  configure_io := fun _ => true
  type := fun word =>
    if word = some ['e', 'c', 'h', 'o'] then t_type.BUILTIN
    else if word = some ['w', 'c'] then t_type.COMMAND
    else t_type.META_CHAR
  exec_builtins := fun _ => builtin_end.returns 0
  print_not_found := fun _ => 1
  env_list_to_array := [['H', 'O', 'M', 'E', '=', '/']]
  execve_fails := true
  access_x_ok := fun _ => false

/-- Answers in the parent for the same line: `fork` gives the pid 42. -/
def parent_answers : Extern :=
  { child_answers with fork := 42 }

/-- The words of the line `echo hi | wc`. -/
def echo_wc_args : List (List Char) :=
  [['e', 'c', 'h', 'o'], ['h', 'i'], ['|'], ['w', 'c']]

/-- The word `./minishell`. -/
def DOT_SLASH_MINISHELL : List Char :=
  ['.', '/', 'm', 'i', 'n', 'i', 's', 'h', 'e', 'l', 'l']

/-- Answers in the parent for the line `./minishell`, an executable file. -/
def nested_answers : Extern :=
  { child_answers with
    fork := 42
    cut_arrays_into_expression := fun a _ => a
    type := fun _ => t_type.COMMAND
    access_x_ok := fun cmd => decide (cmd = DOT_SLASH_MINISHELL) }

/-! ## Vocabulary of the specification -/

/-- Position of a reader with respect to quoted spans. -/
inductive QuoteState where
  | outside
  | in_single
  | in_double
  deriving DecidableEq, Repr

/-- Effect of one character on the position: a quote met outside opens a
span, the next quote of the same kind closes it. -/
def quote_step (st : QuoteState) (c : Char) : QuoteState :=
  match st with
  | QuoteState.outside =>
    if c = SQUOTE then QuoteState.in_single
    else if c = DQUOTE then QuoteState.in_double
    else QuoteState.outside
  | QuoteState.in_single => if c = SQUOTE then QuoteState.outside else QuoteState.in_single
  | QuoteState.in_double => if c = DQUOTE then QuoteState.outside else QuoteState.in_double

/-- Position reached after reading `s` from position `st`. -/
def quote_state (st : QuoteState) (s : List Char) : QuoteState :=
  s.foldl quote_step st

/-- Whether `c` read at position `st` is a delimiter: a quote that opens or
closes a span. -/
def is_delimiter (st : QuoteState) (c : Char) : Bool :=
  match st with
  | QuoteState.outside => decide (c = SQUOTE ∨ c = DQUOTE)
  | QuoteState.in_single => decide (c = SQUOTE)
  | QuoteState.in_double => decide (c = DQUOTE)

/-- The string `s` read from position `st`, without its delimiters. -/
def strip_delimiters : QuoteState → List Char → List Char
  | _, [] => []
  | st, c :: rest =>
    if is_delimiter st c then strip_delimiters (quote_step st c) rest
    else c :: strip_delimiters (quote_step st c) rest

/-- Number of delimiters of `s` read from position `st`. -/
def count_delimiters : QuoteState → List Char → Nat
  | _, [] => 0
  | st, c :: rest =>
    (if is_delimiter st c then 1 else 0) + count_delimiters (quote_step st c) rest

/-- Offset of the first space of `s` that is read outside every quoted span,
when reading starts at position `st`; the length of `s` without such space. -/
def free_space_offset : QuoteState → List Char → Nat
  | _, [] => 0
  | st, c :: rest =>
    if c = ' ' ∧ st = QuoteState.outside then 0
    else free_space_offset (quote_step st c) rest + 1

/-- Position encoded by the two parity flags of the scanners. -/
def flags_state (single_quote double_quote : Nat) : QuoteState :=
  if single_quote % 2 = 1 then QuoteState.in_single
  else if double_quote % 2 = 1 then QuoteState.in_double
  else QuoteState.outside

/-- The value the specification gives for `compute_len`: the index of the
first space preceded by an even number of single quotes and an even number
of double quotes, each kind counted on its own; the length without one. -/
def first_space_independent (s : List Char) : Nat :=
  ((List.range s.length).find? fun i =>
    decide (s.get? i = some ' ' ∧ (s.take i).count SQUOTE % 2 = 0
      ∧ (s.take i).count DQUOTE % 2 = 0)).getD s.length

/-- The whitespace of the lexer: a space or a character in `\t..\r`. -/
def is_whitespace (c : Char) : Prop :=
  c = ' ' ∨ (9 ≤ c.toNat ∧ c.toNat ≤ 13)

instance (c : Char) : Decidable (is_whitespace c) := by
  unfold is_whitespace; infer_instance

/-- The line `echo "w"`. -/
def echo_quoted (w : List Char) : List Char :=
  ['e', 'c', 'h', 'o', ' ', DQUOTE] ++ w ++ [DQUOTE]

/-! ## The scanners and the quoted spans -/

theorem SQUOTE_ne_DQUOTE : SQUOTE ≠ DQUOTE := by decide

theorem SQUOTE_ne_space : SQUOTE ≠ ' ' := by decide

theorem DQUOTE_ne_space : DQUOTE ≠ ' ' := by decide

/-- One iteration of `compute_len` moves the flags as `quote_step` moves the
position. -/
theorem compute_len_flags_step (c : Char) (dq sq : Nat) (h : ¬ (dq % 2 = 1 ∧ sq % 2 = 1)) :
    let fd := if c = DQUOTE ∧ sq % 2 = 0 then dq + 1 else dq
    let fs := if c = SQUOTE ∧ fd % 2 = 0 then sq + 1 else sq
    ¬ (fd % 2 = 1 ∧ fs % 2 = 1) ∧ flags_state fs fd = quote_step (flags_state sq dq) c := by
  intro fd fs
  have hne := SQUOTE_ne_DQUOTE
  rcases Nat.mod_two_eq_zero_or_one dq with hd | hd <;>
  rcases Nat.mod_two_eq_zero_or_one sq with hs | hs <;>
  by_cases h1 : c = DQUOTE <;> by_cases h2 : c = SQUOTE <;>
  simp_all [fd, fs, flags_state, quote_step, Nat.add_mod]

/-- One iteration of `count_del_quotes` moves the counters as `quote_step`
moves the position, and counts the character when it is a delimiter. -/
theorem count_del_quotes_step (c : Char) (sq dq : Nat) (h : ¬ (dq % 2 = 1 ∧ sq % 2 = 1)) :
    let s1 := if c = SQUOTE ∧ dq % 2 = 0 then sq + 1 else sq
    let d1 := if c = DQUOTE ∧ s1 % 2 = 0 then dq + 1 else dq
    ¬ (d1 % 2 = 1 ∧ s1 % 2 = 1) ∧ flags_state s1 d1 = quote_step (flags_state sq dq) c
      ∧ s1 + d1 = sq + dq + (if is_delimiter (flags_state sq dq) c then 1 else 0) := by
  intro s1 d1
  have hne := SQUOTE_ne_DQUOTE
  rcases Nat.mod_two_eq_zero_or_one dq with hd | hd <;>
  rcases Nat.mod_two_eq_zero_or_one sq with hs | hs <;>
  by_cases h1 : c = DQUOTE <;> by_cases h2 : c = SQUOTE <;>
  simp_all [s1, d1, flags_state, quote_step, is_delimiter, Nat.add_mod] <;> omega

theorem compute_len_loop_eq (s : List Char) : ∀ len dq sq : Nat,
    ¬ (dq % 2 = 1 ∧ sq % 2 = 1) →
    compute_len_loop s len dq sq = len + free_space_offset (flags_state sq dq) s := by
  induction s with
  | nil => intro len dq sq _; simp [compute_len_loop, free_space_offset]
  | cons c rest ih =>
    intro len dq sq h
    have hstep := compute_len_flags_step c dq sq h
    simp only at hstep
    by_cases hsp : c = ' ' ∧ dq % 2 = 0 ∧ sq % 2 = 0
    · have hst : flags_state sq dq = QuoteState.outside := by
        simp [flags_state, hsp.2.1, hsp.2.2]
      simp [compute_len_loop, free_space_offset, hsp, hst]
    · have hst : ¬ (c = ' ' ∧ flags_state sq dq = QuoteState.outside) := by
        intro hc
        apply hsp
        refine ⟨hc.1, ?_⟩
        have h2 := hc.2
        unfold flags_state at h2
        split_ifs at h2
        omega
      rw [compute_len_loop, if_neg hsp]
      simp only
      rw [ih _ _ _ hstep.1, hstep.2, free_space_offset, if_neg hst]
      omega

theorem compute_len_eq (s : List Char) :
    compute_len s = free_space_offset QuoteState.outside s := by
  have h := compute_len_loop_eq s 0 0 0 (by omega)
  simpa [compute_len, flags_state] using h

theorem free_space_offset_le (s : List Char) : ∀ st, free_space_offset st s ≤ s.length := by
  induction s with
  | nil => intro st; simp [free_space_offset]
  | cons c rest ih =>
    intro st
    rw [free_space_offset]
    split_ifs
    · simp
    · have := ih (quote_step st c); simp; omega

theorem quote_state_cons (st : QuoteState) (c : Char) (s : List Char) :
    quote_state st (c :: s) = quote_state (quote_step st c) s := rfl

theorem quote_state_append (st : QuoteState) (s t : List Char) :
    quote_state st (s ++ t) = quote_state (quote_state st s) t := by
  simp [quote_state, List.foldl_append]

/-- Where `free_space_offset` stops short of the end there is a space, read
outside every quoted span. -/
theorem free_space_offset_stop (s : List Char) : ∀ st,
    free_space_offset st s < s.length →
    s.get? (free_space_offset st s) = some ' '
      ∧ quote_state st (s.take (free_space_offset st s)) = QuoteState.outside := by
  induction s with
  | nil => intro st h; simp at h
  | cons c rest ih =>
    intro st h
    rw [free_space_offset] at h ⊢
    split_ifs at h ⊢ with hc
    · simp [hc.1, hc.2, quote_state]
    · have h2 : free_space_offset (quote_step st c) rest < rest.length := by
        simp at h; omega
      have := ih _ h2
      simpa [quote_state_cons] using this

/-- Before the offset given by `free_space_offset` no space is read outside
every quoted span. -/
theorem free_space_offset_first (s : List Char) : ∀ st i,
    i < free_space_offset st s →
    ¬ (s.get? i = some ' ' ∧ quote_state st (s.take i) = QuoteState.outside) := by
  induction s with
  | nil => intro st i h; simp [free_space_offset] at h
  | cons c rest ih =>
    intro st i h
    rw [free_space_offset] at h
    split_ifs at h with hc
    · omega
    · cases i with
      | zero =>
        intro hh
        apply hc
        simpa [quote_state] using hh
      | succ k =>
        have := ih (quote_step st c) k (by omega)
        simpa [quote_state_cons] using this

theorem count_del_quotes_loop_eq (s : List Char) : ∀ sq dq : Nat,
    ¬ (dq % 2 = 1 ∧ sq % 2 = 1) →
    ¬ ((count_del_quotes_loop s sq dq).2 % 2 = 1 ∧ (count_del_quotes_loop s sq dq).1 % 2 = 1)
    ∧ flags_state (count_del_quotes_loop s sq dq).1 (count_del_quotes_loop s sq dq).2
        = quote_state (flags_state sq dq) s
    ∧ (count_del_quotes_loop s sq dq).1 + (count_del_quotes_loop s sq dq).2
        = sq + dq + count_delimiters (flags_state sq dq) s := by
  induction s with
  | nil => intro sq dq h; simp [count_del_quotes_loop, quote_state, count_delimiters, h]
  | cons c rest ih =>
    intro sq dq h
    have hstep := count_del_quotes_step c sq dq h
    simp only at hstep
    obtain ⟨h1, h2, h3⟩ := ih _ _ hstep.1
    rw [count_del_quotes_loop]
    refine ⟨h1, ?_, ?_⟩
    · rw [h2, hstep.2.1, quote_state_cons]
    · rw [h3, hstep.2.2, hstep.2.1, count_delimiters]; omega

theorem strip_delimiters_length (s : List Char) : ∀ st,
    (strip_delimiters st s).length + count_delimiters st s = s.length := by
  induction s with
  | nil => intro st; simp [strip_delimiters, count_delimiters]
  | cons c rest ih =>
    intro st
    have := ih (quote_step st c)
    rw [strip_delimiters, count_delimiters]
    split_ifs <;> simp <;> omega

/-- The check of `count_del_quotes` passes exactly when the element ends
outside every quoted span, and the count is then the number of delimiters. -/
theorem count_del_quotes_balanced (element : List Char)
    (h : quote_state QuoteState.outside element = QuoteState.outside) :
    count_del_quotes element = Outcome.ret (count_delimiters QuoteState.outside element) := by
  obtain ⟨h1, h2, h3⟩ := count_del_quotes_loop_eq element 0 0 (by omega)
  have hf : flags_state 0 0 = QuoteState.outside := by simp [flags_state]
  rw [hf] at h2 h3
  rw [h] at h2
  have hpar : ¬ ((count_del_quotes_loop element 0 0).1 % 2 ≠ 0
      ∨ (count_del_quotes_loop element 0 0).2 % 2 ≠ 0) := by
    unfold flags_state at h2
    split_ifs at h2
    omega
  rw [count_del_quotes, if_neg hpar, h3]
  simp

theorem count_del_quotes_unbalanced (element : List Char)
    (h : quote_state QuoteState.outside element ≠ QuoteState.outside) :
    count_del_quotes element = Outcome.exit "Error: Unmatched quotes\n" EXIT_FAILURE := by
  obtain ⟨h1, h2, h3⟩ := count_del_quotes_loop_eq element 0 0 (by omega)
  have hf : flags_state 0 0 = QuoteState.outside := by simp [flags_state]
  rw [hf] at h2
  have hpar : ((count_del_quotes_loop element 0 0).1 % 2 ≠ 0
      ∨ (count_del_quotes_loop element 0 0).2 % 2 ≠ 0) := by
    by_contra hc
    apply h
    rw [← h2]
    unfold flags_state
    split_ifs <;> first | rfl | omega
  rw [count_del_quotes, if_pos hpar]

/-! ## Quote stripping -/

theorem read_at_append_cons (pre : List Char) (c : Char) (rest : List Char) :
    read_at (pre ++ c :: rest) pre.length = Cell.chr c := by
  have h : (pre ++ c :: rest).get? pre.length = some c := by
    rw [List.get?_eq_getElem?, List.getElem?_append_right (le_refl _)]
    simp
  simp only [read_at, h]

theorem read_at_lt (element : List Char) (k : Nat) (h : k < element.length) :
    ∃ c, read_at element k = Cell.chr c := by
  refine ⟨element.get ⟨k, h⟩, ?_⟩
  simp only [read_at, List.get?_eq_get h]

theorem read_at_length (element : List Char) :
    read_at element element.length = Cell.nul := by
  simp [read_at]

/-- The inner loop copies the characters of a span up to its closing quote. -/
theorem clean_up_quotes_copy_spec (element : List Char) (size : Nat) (q : Char)
    (mid : List Char) : ∀ (pre post : List Char) (s : clean_state) (fuel : Nat),
    element = pre ++ mid ++ q :: post → q ∉ mid → s.i = pre.length → s.j < s.i →
    s.j + mid.length ≤ size → mid.length < fuel →
    clean_up_quotes_copy element size q fuel s
      = Outcome.ret { i := s.i + mid.length, j := s.j + mid.length,
                      new_element := s.new_element ++ mid } := by
  induction mid with
  | nil =>
    intro pre post s fuel he _ hi hj _ hf
    obtain ⟨f, rfl⟩ : ∃ f, fuel = f + 1 := ⟨fuel - 1, by simp at hf; omega⟩
    have hlen : s.j < element.length := by rw [he]; simp; omega
    obtain ⟨cj, hcj⟩ := read_at_lt element s.j hlen
    have hci : read_at element s.i = Cell.chr q := by
      rw [he, hi]; simpa using read_at_append_cons pre q post
    rw [clean_up_quotes_copy, hcj]
    simp only [hci, if_true]
    cases s; simp
  | cons c mid ih =>
    intro pre post s fuel he hq hi hj hsz hf
    obtain ⟨f, rfl⟩ : ∃ f, fuel = f + 1 := ⟨fuel - 1, by simp at hf; omega⟩
    have hlen : s.j < element.length := by rw [he]; simp; omega
    obtain ⟨cj, hcj⟩ := read_at_lt element s.j hlen
    have hci : read_at element s.i = Cell.chr c := by
      rw [he, hi]; simpa using read_at_append_cons pre c (mid ++ q :: post)
    have hcq : c ≠ q := fun hc => hq (by simp [hc])
    have hput : s.put size c = Outcome.ret
        { i := s.i + 1, j := s.j + 1, new_element := s.new_element ++ [c] } := by
      simp at hsz
      simp [clean_state.put]; omega
    rw [clean_up_quotes_copy, hcj]
    simp only [hci, if_neg hcq, hput, Outcome.bind]
    rw [ih (pre ++ [c]) post _ f (by simp [he]) (fun hm => hq (by simp [hm]))
      (by simp [hi]) (by simp; omega) (by simp at hsz ⊢; omega) (by simp at hf; omega)]
    simp
    omega

/-- A string read from inside a span opened by `q` and ending outside every
span splits at the quote that closes the span. -/
theorem quote_span_split (q : Char) (st : QuoteState) (hst : st ≠ QuoteState.outside)
    (hstep : ∀ c, quote_step st c = if c = q then QuoteState.outside else st)
    (hdel : ∀ c, is_delimiter st c = decide (c = q)) (s : List Char) :
    quote_state st s = QuoteState.outside →
    ∃ mid post, s = mid ++ q :: post ∧ q ∉ mid
      ∧ quote_state QuoteState.outside post = QuoteState.outside
      ∧ strip_delimiters st s = mid ++ strip_delimiters QuoteState.outside post := by
  induction s with
  | nil => intro h; exact absurd h hst
  | cons c rest ih =>
    intro h
    rw [quote_state_cons, hstep] at h
    by_cases hc : c = q
    · rw [if_pos hc] at h
      refine ⟨[], rest, by simp [hc], by simp, h, ?_⟩
      rw [strip_delimiters, hdel, hstep]
      simp [hc]
    · rw [if_neg hc] at h
      obtain ⟨mid, post, h1, h2, h3, h4⟩ := ih h
      refine ⟨c :: mid, post, by simp [h1], ?_, h3, ?_⟩
      · simp [h2]; exact fun h => hc h.symm
      · rw [strip_delimiters, hdel, hstep]
        simp [hc, h4]

theorem quote_span_split_single (s : List Char)
    (h : quote_state QuoteState.in_single s = QuoteState.outside) :
    ∃ mid post, s = mid ++ SQUOTE :: post ∧ SQUOTE ∉ mid
      ∧ quote_state QuoteState.outside post = QuoteState.outside
      ∧ strip_delimiters QuoteState.in_single s
          = mid ++ strip_delimiters QuoteState.outside post :=
  quote_span_split SQUOTE QuoteState.in_single (by decide)
    (fun c => by simp [quote_step]) (fun c => by simp [is_delimiter]) s h

theorem quote_span_split_double (s : List Char)
    (h : quote_state QuoteState.in_double s = QuoteState.outside) :
    ∃ mid post, s = mid ++ DQUOTE :: post ∧ DQUOTE ∉ mid
      ∧ quote_state QuoteState.outside post = QuoteState.outside
      ∧ strip_delimiters QuoteState.in_double s
          = mid ++ strip_delimiters QuoteState.outside post :=
  quote_span_split DQUOTE QuoteState.in_double (by decide)
    (fun c => by simp [quote_step]) (fun c => by simp [is_delimiter]) s h

/-- The outer loop, started at the beginning of a suffix that ends outside
every quoted span, writes that suffix without its delimiters. -/
theorem clean_up_quotes_loop_spec (element : List Char) (size : Nat) :
    ∀ (n : Nat) (rest pre : List Char) (s : clean_state) (fuel : Nat),
    rest.length ≤ n → element = pre ++ rest → s.i = pre.length → s.j ≤ s.i →
    quote_state QuoteState.outside rest = QuoteState.outside →
    s.j + (strip_delimiters QuoteState.outside rest).length ≤ size →
    rest.length < fuel →
    clean_up_quotes_loop element size fuel s
      = Outcome.ret { i := element.length,
                      j := s.j + (strip_delimiters QuoteState.outside rest).length,
                      new_element := s.new_element
                        ++ strip_delimiters QuoteState.outside rest } := by
  intro n
  induction n with
  | zero =>
    intro rest pre s fuel hn he hi _ _ _ hf
    obtain ⟨f, rfl⟩ : ∃ f, fuel = f + 1 := ⟨fuel - 1, by omega⟩
    have hr : rest = [] := List.length_eq_zero.mp (by omega)
    subst hr
    have hnul : read_at element s.i = Cell.nul := by
      rw [hi, he]; simpa using read_at_length pre
    rw [clean_up_quotes_loop, hnul]
    cases s
    simp_all [strip_delimiters]
  | succ n ih =>
    intro rest pre s fuel hn he hi hj hbal hsz hf
    obtain ⟨f, rfl⟩ : ∃ f, fuel = f + 1 := ⟨fuel - 1, by omega⟩
    cases rest with
    | nil =>
      have hnul : read_at element s.i = Cell.nul := by
        rw [hi, he]; simpa using read_at_length pre
      rw [clean_up_quotes_loop, hnul]
      cases s
      simp_all [strip_delimiters]
    | cons c rest =>
      have hci : read_at element s.i = Cell.chr c := by
        rw [he, hi]; exact read_at_append_cons pre c rest
      simp only [List.length_cons] at hn hf
      rw [clean_up_quotes_loop, hci]
      simp only
      by_cases hs : c = SQUOTE
      · subst hs
        have hb : quote_state QuoteState.in_single rest = QuoteState.outside := by
          simpa [quote_state_cons, quote_step] using hbal
        obtain ⟨mid, post, h1, h2, h3, h4⟩ := quote_span_split_single rest hb
        have hstrip : strip_delimiters QuoteState.outside (SQUOTE :: rest)
            = mid ++ strip_delimiters QuoteState.outside post := by
          rw [strip_delimiters]; simp [is_delimiter, quote_step, h4]
        rw [hstrip] at hsz ⊢
        have hlen : rest.length = mid.length + post.length + 1 := by
          rw [h1]; simp; omega
        rw [if_pos rfl, clean_up_quotes_copy_spec element size SQUOTE mid
          (pre ++ [SQUOTE]) post _ f (by simp [he, h1]) h2 (by simp [hi])
          (by simp; omega) (by simp at hsz ⊢; omega) (by omega)]
        simp only [Outcome.bind]
        rw [ih post (pre ++ SQUOTE :: mid ++ [SQUOTE]) _ f (by omega) (by simp [he, h1])
          (by simp [hi]; omega) (by simp; omega) h3 (by simp at hsz ⊢; omega) (by omega)]
        simp
        omega
      · by_cases hd : c = DQUOTE
        · subst hd
          have hb : quote_state QuoteState.in_double rest = QuoteState.outside := by
            simpa [quote_state_cons, quote_step, hs] using hbal
          obtain ⟨mid, post, h1, h2, h3, h4⟩ := quote_span_split_double rest hb
          have hstrip : strip_delimiters QuoteState.outside (DQUOTE :: rest)
              = mid ++ strip_delimiters QuoteState.outside post := by
            rw [strip_delimiters]; simp [is_delimiter, quote_step, h4, hs]
          rw [hstrip] at hsz ⊢
          have hlen : rest.length = mid.length + post.length + 1 := by
            rw [h1]; simp; omega
          rw [if_neg hs, if_pos rfl, clean_up_quotes_copy_spec element size DQUOTE mid
            (pre ++ [DQUOTE]) post _ f (by simp [he, h1]) h2 (by simp [hi])
            (by simp; omega) (by simp at hsz ⊢; omega) (by omega)]
          simp only [Outcome.bind]
          rw [ih post (pre ++ DQUOTE :: mid ++ [DQUOTE]) _ f (by omega) (by simp [he, h1])
            (by simp [hi]; omega) (by simp; omega) h3 (by simp at hsz ⊢; omega) (by omega)]
          simp
          omega
        · have hb : quote_state QuoteState.outside rest = QuoteState.outside := by
            simpa [quote_state_cons, quote_step, hs, hd] using hbal
          have hstrip : strip_delimiters QuoteState.outside (c :: rest)
              = c :: strip_delimiters QuoteState.outside rest := by
            rw [strip_delimiters]; simp [is_delimiter, quote_step, hs, hd]
          rw [hstrip] at hsz ⊢
          have hput : s.put size c = Outcome.ret
              { i := s.i + 1, j := s.j + 1, new_element := s.new_element ++ [c] } := by
            simp at hsz
            simp [clean_state.put]; omega
          rw [if_neg hs, if_neg hd, hput]
          simp only [Outcome.bind]
          rw [ih rest (pre ++ [c]) _ f (by omega) (by simp [he])
            (by simp [hi]) (by simp; omega) hb (by simp at hsz ⊢; omega) (by omega)]
          simp
          omega

/-- On an element that ends outside every quoted span, `clean_up_quotes`
returns the element without its delimiters. -/
theorem clean_up_quotes_balanced (element : List Char)
    (h : quote_state QuoteState.outside element = QuoteState.outside) :
    clean_up_quotes element
      = Outcome.ret (strip_delimiters QuoteState.outside element) := by
  have hlen := strip_delimiters_length element QuoteState.outside
  rw [clean_up_quotes, count_del_quotes_balanced element h]
  simp only [Outcome.bind]
  rw [clean_up_quotes_loop_spec element _ element.length element [] _ _ (le_refl _)
    (by simp) (by simp) (by simp) h (by simp; omega) (by omega)]
  simp only [Outcome.bind]
  rw [if_pos (by simp; omega)]
  simp

/-- On an element that ends inside a quoted span, `clean_up_quotes` ends the
process. -/
theorem clean_up_quotes_unbalanced (element : List Char)
    (h : quote_state QuoteState.outside element ≠ QuoteState.outside) :
    clean_up_quotes element
      = Outcome.exit "Error: Unmatched quotes\n" EXIT_FAILURE := by
  rw [clean_up_quotes, count_del_quotes_unbalanced element h]
  rfl

/-! ## The tokenizer loop -/

theorem compute_len_le (line : List Char) : compute_len line ≤ line.length := by
  rw [compute_len_eq]; exact free_space_offset_le line _

theorem get_element_length (line : List Char) :
    (get_element line).length = compute_len line := by
  simp [get_element, compute_len_le line]

/-- On an element without variable `add_token` appends the element and moves
the line pointer past it. -/
theorem add_token_plain (hv : List Char → Bool) (ril : List Char → List Char)
    (line : List Char) (toks : List t_token) (h : hv (get_element line) = false) :
    add_token hv ril line toks
      = (line.drop (compute_len line), toks ++ [create_new_token (get_element line)]) := by
  unfold add_token
  simp only [h, get_element_length]
  cases toks <;> simp

theorem tokenize_loop_token (hv : List Char → Bool) (ril : List Char → List Char)
    (fuel : Nat) (c : Char) (rest : List Char) (toks : List t_token)
    (hc : starts_token c) (h : hv (get_element (c :: rest)) = false) :
    tokenize_loop hv ril (fuel + 1) (c :: rest) toks
      = tokenize_loop hv ril fuel ((c :: rest).drop (compute_len (c :: rest)))
          (toks ++ [create_new_token (get_element (c :: rest))]) := by
  rw [tokenize_loop, if_pos hc]
  simp only [add_token_plain hv ril (c :: rest) toks h]

theorem tokenize_loop_skip (hv : List Char → Bool) (ril : List Char → List Char)
    (fuel : Nat) (c : Char) (rest : List Char) (toks : List t_token)
    (hc : ¬ starts_token c) :
    tokenize_loop hv ril (fuel + 1) (c :: rest) toks
      = tokenize_loop hv ril fuel rest toks := by
  rw [tokenize_loop, if_neg hc]

theorem starts_token_not_quote (c : Char) (h : ¬ starts_token c) :
    c ≠ SQUOTE ∧ c ≠ DQUOTE := by
  constructor
  · rintro rfl; exact h (by decide)
  · rintro rfl; exact h (by decide)

theorem compute_len_pos (c : Char) (rest : List Char) (hc : starts_token c) :
    0 < compute_len (c :: rest) := by
  rw [compute_len_eq, free_space_offset, if_neg (fun h => hc.2 h.1)]
  omega

/-- A run that stops before the end of the line ends outside every quoted
span. -/
theorem get_element_balanced (line : List Char) (h : compute_len line < line.length) :
    quote_state QuoteState.outside (get_element line) = QuoteState.outside := by
  rw [compute_len_eq] at h
  have := (free_space_offset_stop line QuoteState.outside h).2
  simpa [get_element, compute_len_eq] using this

/-- A run that stops before the end of the line is followed by a space. -/
theorem drop_compute_len_head (line : List Char) (h : compute_len line < line.length) :
    ∃ tl, line.drop (compute_len line) = ' ' :: tl := by
  rw [compute_len_eq] at h
  have h1 := (free_space_offset_stop line QuoteState.outside h).1
  rw [compute_len_eq]
  refine ⟨line.drop (free_space_offset QuoteState.outside line + 1), ?_⟩
  rw [List.get?_eq_getElem?] at h1
  have h2 := List.getElem?_eq_some_iff.mp h1
  obtain ⟨hlt, heq⟩ := h2
  rw [← heq]
  exact List.drop_eq_getElem_cons hlt

theorem quote_state_whitespace (w : List Char) (hw : ∀ c ∈ w, ¬ starts_token c) :
    ∀ s, quote_state QuoteState.outside (w ++ s) = quote_state QuoteState.outside s := by
  induction w with
  | nil => intro s; rfl
  | cons c w ih =>
    intro s
    have hc := starts_token_not_quote c (hw c (by simp))
    have : quote_step QuoteState.outside c = QuoteState.outside := by
      simp [quote_step, hc.1, hc.2]
    rw [List.cons_append, quote_state_cons, this]
    exact ih (fun d hd => hw d (by simp [hd])) s

/-- The runs of a line without variable: the loop returns, the line is the
runs in order with whitespace around them, no run is empty, and when the line
ends outside every quoted span so does every run. -/
theorem tokenize_loop_runs (hv : List Char → Bool) (ril : List Char → List Char)
    (hhv : ∀ e, '$' ∉ e → hv e = false) :
    ∀ (n : Nat) (line : List Char) (toks : List t_token) (fuel : Nat),
    line.length ≤ n → '$' ∉ line → line.length < fuel →
    ∃ (w0 : List Char) (segs : List (List Char × List Char)),
      tokenize_loop hv ril fuel line toks
        = Outcome.ret (toks ++ segs.map (fun p => create_new_token p.1))
      ∧ line = w0 ++ (segs.map (fun p => p.1 ++ p.2)).flatten
      ∧ (∀ c ∈ w0, ¬ starts_token c)
      ∧ (∀ p ∈ segs, p.1 ≠ [] ∧ ∀ c ∈ p.2, ¬ starts_token c)
      ∧ (quote_state QuoteState.outside line = QuoteState.outside →
          ∀ p ∈ segs, quote_state QuoteState.outside p.1 = QuoteState.outside) := by
  intro n
  induction n with
  | zero =>
    intro line toks fuel hn _ hf
    obtain ⟨f, rfl⟩ : ∃ f, fuel = f + 1 := ⟨fuel - 1, by omega⟩
    have hl : line = [] := List.length_eq_zero.mp (by omega)
    subst hl
    exact ⟨[], [], by simp [tokenize_loop], by simp, by simp, by simp, by simp⟩
  | succ n ih =>
    intro line toks fuel hn hd hf
    obtain ⟨f, rfl⟩ : ∃ f, fuel = f + 1 := ⟨fuel - 1, by omega⟩
    cases line with
    | nil => exact ⟨[], [], by simp [tokenize_loop], by simp, by simp, by simp, by simp⟩
    | cons c rest =>
      simp only [List.length_cons] at hn hf
      by_cases hc : starts_token c
      · have hpos := compute_len_pos c rest hc
        have hle := compute_len_le (c :: rest)
        have hrun : '$' ∉ get_element (c :: rest) :=
          fun hm => hd (List.mem_of_mem_take hm)
        have hrest : '$' ∉ (c :: rest).drop (compute_len (c :: rest)) :=
          fun hm => hd (List.mem_of_mem_drop hm)
        have hlen : ((c :: rest).drop (compute_len (c :: rest))).length
            = rest.length + 1 - compute_len (c :: rest) := by simp
        obtain ⟨w0, segs, h1, h2, h3, h4, h5⟩ :=
          ih ((c :: rest).drop (compute_len (c :: rest)))
            (toks ++ [create_new_token (get_element (c :: rest))]) f
            (by omega) hrest (by omega)
        have hsplit : c :: rest = get_element (c :: rest)
            ++ (c :: rest).drop (compute_len (c :: rest)) := by
          simp [get_element]
        have hne : get_element (c :: rest) ≠ [] := by
          intro he
          have := get_element_length (c :: rest)
          rw [he] at this
          simp at this
          omega
        refine ⟨[], (get_element (c :: rest), w0) :: segs, ?_, ?_, by simp, ?_, ?_⟩
        · rw [tokenize_loop_token hv ril f c rest toks hc (hhv _ hrun), h1]
          simp
        · conv_lhs => rw [hsplit, h2]
          simp
        · intro p hp
          rcases List.mem_cons.mp hp with rfl | hp
          · exact ⟨hne, h3⟩
          · exact h4 p hp
        · intro hbal p hp
          have hboth : quote_state QuoteState.outside (get_element (c :: rest))
                = QuoteState.outside
              ∧ quote_state QuoteState.outside
                  ((c :: rest).drop (compute_len (c :: rest))) = QuoteState.outside := by
            rcases Nat.lt_or_ge (compute_len (c :: rest)) (c :: rest).length with hlt | hge
            · have hb := get_element_balanced (c :: rest) hlt
              refine ⟨hb, ?_⟩
              rw [hsplit, quote_state_append, hb] at hbal
              exact hbal
            · have hdrop : (c :: rest).drop (compute_len (c :: rest)) = [] :=
                List.drop_eq_nil_of_le hge
              have htake : get_element (c :: rest) = c :: rest := by
                rw [get_element]; exact List.take_of_length_le hge
              rw [hdrop, htake]
              exact ⟨hbal, rfl⟩
          rcases List.mem_cons.mp hp with rfl | hp
          · exact hboth.1
          · exact h5 hboth.2 p hp
      · obtain ⟨w0, segs, h1, h2, h3, h4, h5⟩ :=
          ih rest toks f (by omega) (fun hm => hd (by simp [hm])) (by omega)
        refine ⟨c :: w0, segs, ?_, by simp [← h2], ?_, h4, ?_⟩
        · rw [tokenize_loop_skip hv ril f c rest toks hc, h1]
        · intro d hdm
          rcases List.mem_cons.mp hdm with rfl | hdm
          · exact hc
          · exact h3 d hdm
        · intro hbal
          have := quote_state_whitespace [c] (by simpa using hc) rest
          simp only [List.singleton_append] at this
          rw [this] at hbal
          exact h5 hbal

/-! ## Words without quote -/

theorem free_space_offset_word (t : List Char)
    (ht : ∀ c ∈ t, c ≠ ' ' ∧ c ≠ SQUOTE ∧ c ≠ DQUOTE) (rest : List Char) :
    free_space_offset QuoteState.outside (t ++ rest)
      = t.length + free_space_offset QuoteState.outside rest := by
  induction t with
  | nil => simp
  | cons c t ih =>
    obtain ⟨h1, h2, h3⟩ := ht c (by simp)
    rw [List.cons_append, free_space_offset, if_neg (fun h => h1 h.1)]
    have : quote_step QuoteState.outside c = QuoteState.outside := by
      simp [quote_step, h2, h3]
    rw [this, ih (fun d hd => ht d (by simp [hd]))]
    simp
    omega

theorem free_space_offset_in_double (w : List Char) (hw : DQUOTE ∉ w) (rest : List Char) :
    free_space_offset QuoteState.in_double (w ++ DQUOTE :: rest)
      = w.length + 1 + free_space_offset QuoteState.outside rest := by
  induction w with
  | nil =>
    rw [List.nil_append, free_space_offset, if_neg (fun h => by simp at h)]
    simp [quote_step]
    omega
  | cons c w ih =>
    have hc : c ≠ DQUOTE := fun h => hw (by simp [h])
    rw [List.cons_append, free_space_offset, if_neg (fun h => by simp at h)]
    have : quote_step QuoteState.in_double c = QuoteState.in_double := by
      simp [quote_step, hc]
    rw [this, ih (fun hm => hw (by simp [hm]))]
    simp
    omega

theorem quote_state_word (t : List Char) (ht : ∀ c ∈ t, c ≠ SQUOTE ∧ c ≠ DQUOTE) :
    quote_state QuoteState.outside t = QuoteState.outside
      ∧ strip_delimiters QuoteState.outside t = t := by
  induction t with
  | nil => exact ⟨rfl, rfl⟩
  | cons c t ih =>
    obtain ⟨h2, h3⟩ := ht c (by simp)
    have hs : quote_step QuoteState.outside c = QuoteState.outside := by
      simp [quote_step, h2, h3]
    obtain ⟨i1, i2⟩ := ih (fun d hd => ht d (by simp [hd]))
    refine ⟨by rw [quote_state_cons, hs, i1], ?_⟩
    rw [strip_delimiters, hs, i2]
    simp [is_delimiter, h2, h3]

theorem quote_state_in_double (w : List Char) (hw : DQUOTE ∉ w) :
    quote_state QuoteState.in_double (w ++ [DQUOTE]) = QuoteState.outside
      ∧ strip_delimiters QuoteState.in_double (w ++ [DQUOTE]) = w := by
  induction w with
  | nil => simp [quote_state, quote_step, strip_delimiters, is_delimiter]
  | cons c w ih =>
    have hc : c ≠ DQUOTE := fun h => hw (by simp [h])
    have hs : quote_step QuoteState.in_double c = QuoteState.in_double := by
      simp [quote_step, hc]
    obtain ⟨i1, i2⟩ := ih (fun hm => hw (by simp [hm]))
    refine ⟨by rw [List.cons_append, quote_state_cons, hs, i1], ?_⟩
    rw [List.cons_append, strip_delimiters, hs, i2]
    simp [is_delimiter, hc]

/-- A word without space nor quote, followed by the end of the line or by a
space, is one run of the loop. -/
theorem tokenize_loop_word (hv : List Char → Bool) (ril : List Char → List Char)
    (fuel : Nat) (t rest : List Char) (toks : List t_token) (hne : t ≠ [])
    (ht : ∀ c ∈ t, starts_token c ∧ c ≠ SQUOTE ∧ c ≠ DQUOTE)
    (hrest : rest = [] ∨ ∃ tl, rest = ' ' :: tl) (h : hv t = false) :
    tokenize_loop hv ril (fuel + 1) (t ++ rest) toks
      = tokenize_loop hv ril fuel rest (toks ++ [create_new_token t]) := by
  have hlen : compute_len (t ++ rest) = t.length := by
    rw [compute_len_eq, free_space_offset_word t (fun c hc => ⟨(ht c hc).1.2, (ht c hc).2⟩)]
    rcases hrest with rfl | ⟨tl, rfl⟩ <;> simp [free_space_offset]
  have hget : get_element (t ++ rest) = t := by
    simp [get_element, hlen]
  obtain ⟨c, t1, rfl⟩ := List.exists_cons_of_ne_nil hne
  have hc := (ht c (by simp)).1
  rw [List.cons_append, tokenize_loop_token hv ril fuel c (t1 ++ rest) toks hc
    (by rw [← List.cons_append, hget]; exact h)]
  rw [← List.cons_append, hget, hlen]
  simp

/-- The cleaning pass on a list of elements that end outside every quoted
span and are not a pair of double quotes. -/
theorem clean_up_tokens_all (raw : List t_token)
    (h : ∀ r ∈ raw, r.element ≠ [DQUOTE, DQUOTE]
      ∧ quote_state QuoteState.outside r.element = QuoteState.outside) :
    clean_up_tokens raw = Outcome.ret
      (raw.map fun r => { element := strip_delimiters QuoteState.outside r.element }) := by
  induction raw with
  | nil => rfl
  | cons r raw ih =>
    obtain ⟨h1, h2⟩ := h r (by simp)
    rw [clean_up_tokens, if_neg h1, clean_up_quotes_balanced r.element h2,
      ih (fun x hx => h x (by simp [hx]))]
    rfl

theorem starts_token_iff (c : Char) : starts_token c ↔ ¬ is_whitespace c := by
  unfold starts_token is_whitespace
  constructor
  · rintro ⟨h1, h2⟩ h3
    rcases h3 with h3 | h3
    · exact h2 h3
    · omega
  · intro h
    refine ⟨?_, fun hc => h (Or.inl hc)⟩
    by_contra hn
    exact h (Or.inr (by omega))

theorem strip_delimiters_sublist (s : List Char) : ∀ st,
    List.Sublist (strip_delimiters st s) s := by
  induction s with
  | nil => intro st; simp [strip_delimiters]
  | cons c rest ih =>
    intro st
    rw [strip_delimiters]
    split_ifs
    · exact List.Sublist.cons c (ih _)
    · exact List.Sublist.cons₂ c (ih _)

theorem intercalate_cons_cons (t t2 : List Char) (ts : List (List Char)) :
    List.intercalate [' '] (t :: t2 :: ts)
      = t ++ ' ' :: List.intercalate [' '] (t2 :: ts) := by
  simp [List.intercalate, List.intersperse]

/-- The loop on clean words joined by single spaces appends the words. -/
theorem tokenize_loop_words (hv : List Char → Bool) (ril : List Char → List Char)
    (hhv : ∀ e, '$' ∉ e → hv e = false) (tokens : List (List Char)) :
    (∀ t ∈ tokens, t ≠ [] ∧ ∀ c ∈ t, ¬ is_whitespace c ∧ c ≠ SQUOTE ∧ c ≠ DQUOTE ∧ c ≠ '$') →
    ∀ (toks : List t_token) (fuel : Nat),
    (List.intercalate [' '] tokens).length < fuel →
    tokenize_loop hv ril fuel (List.intercalate [' '] tokens) toks
      = Outcome.ret (toks ++ tokens.map create_new_token) := by
  induction tokens with
  | nil =>
    intro _ toks fuel hf
    obtain ⟨f, rfl⟩ : ∃ f, fuel = f + 1 := ⟨fuel - 1, by omega⟩
    simp [List.intercalate, tokenize_loop]
  | cons t ts ih =>
    intro h toks fuel hf
    obtain ⟨hne, hch⟩ := h t (by simp)
    have hword : ∀ c ∈ t, starts_token c ∧ c ≠ SQUOTE ∧ c ≠ DQUOTE := fun c hc =>
      ⟨(starts_token_iff c).mpr (hch c hc).1, (hch c hc).2.1, (hch c hc).2.2.1⟩
    have hvt : hv t = false := hhv t (fun hm => (hch _ hm).2.2.2 rfl)
    have hpos : 0 < t.length := List.length_pos.mpr hne
    cases ts with
    | nil =>
      have hl : List.intercalate [' '] [t] = t ++ [] := by
        simp [List.intercalate, List.intersperse]
      rw [hl] at hf ⊢
      simp only [List.append_nil] at hf
      obtain ⟨f, rfl⟩ : ∃ f, fuel = f + 2 := ⟨fuel - 2, by omega⟩
      rw [tokenize_loop_word hv ril (f + 1) t [] toks hne hword (Or.inl rfl) hvt]
      simp [tokenize_loop]
    | cons t2 ts =>
      rw [intercalate_cons_cons] at hf ⊢
      simp only [List.length_append, List.length_cons] at hf
      obtain ⟨f, rfl⟩ : ∃ f, fuel = f + 2 := ⟨fuel - 2, by omega⟩
      rw [tokenize_loop_word hv ril (f + 1) t _ toks hne hword (Or.inr ⟨_, rfl⟩) hvt,
        tokenize_loop_skip hv ril f ' ' _ _ (by decide),
        ih (fun x hx => h x (by simp [hx])) _ f (by omega)]
      simp

theorem count_del_quotes_ret_balanced (element : List Char) (n : Nat)
    (h : count_del_quotes element = Outcome.ret n) :
    quote_state QuoteState.outside element = QuoteState.outside := by
  by_contra hc
  rw [count_del_quotes_unbalanced element hc] at h
  exact Outcome.noConfusion h

/-- The cleaning pass on elements that all end outside every quoted span:
it returns a list of the same length, an element is cleaned when neither it
nor an element before it is a pair of double quotes, and the first element
that is a pair of double quotes is left as it is. -/
theorem clean_up_tokens_before_empty (raw : List t_token)
    (h : ∀ r ∈ raw, quote_state QuoteState.outside r.element = QuoteState.outside) :
    ∃ toks, clean_up_tokens raw = Outcome.ret toks ∧ toks.length = raw.length
      ∧ (∀ (k : Nat) (r : t_token), raw[k]? = some r →
          (∀ (m : Nat) (p : t_token), m ≤ k → raw[m]? = some p →
            p.element ≠ [DQUOTE, DQUOTE]) →
          ∃ t, toks[k]? = some t
            ∧ clean_up_quotes r.element = Outcome.ret t.element
            ∧ t.element = strip_delimiters QuoteState.outside r.element)
      ∧ (∀ (k : Nat) (r : t_token), raw[k]? = some r → r.element = [DQUOTE, DQUOTE] →
          (∀ (m : Nat) (p : t_token), m < k → raw[m]? = some p →
            p.element ≠ [DQUOTE, DQUOTE]) →
          toks[k]? = some r) := by
  induction raw with
  | nil => exact ⟨[], rfl, rfl, fun k r hk => by simp at hk, fun k r hk => by simp at hk⟩
  | cons r0 raw ih =>
    by_cases he : r0.element = [DQUOTE, DQUOTE]
    · refine ⟨r0 :: raw, by rw [clean_up_tokens, if_pos he], rfl, ?_, ?_⟩
      · intro k r _ hno
        exact absurd he (hno 0 r0 (Nat.zero_le k) (by simp))
      · intro k r hk _ hno
        cases k with
        | zero => exact hk
        | succ k => exact absurd he (hno 0 r0 (Nat.succ_pos k) (by simp))
    · obtain ⟨toks, h1, h2, h3, h4⟩ := ih (fun x hx => h x (by simp [hx]))
      have hb := h r0 (by simp)
      refine ⟨{ r0 with element := strip_delimiters QuoteState.outside r0.element } :: toks,
        ?_, by simp [h2], ?_, ?_⟩
      · rw [clean_up_tokens, if_neg he, clean_up_quotes_balanced r0.element hb, h1]
        rfl
      · intro k r hk hno
        cases k with
        | zero =>
          simp only [List.getElem?_cons_zero, Option.some.injEq] at hk
          subst hk
          exact ⟨_, by simp, clean_up_quotes_balanced r0.element hb, rfl⟩
        | succ k =>
          simp only [List.getElem?_cons_succ] at hk ⊢
          exact h3 k r hk (fun m p hm hp => hno (m + 1) p (by omega) (by simpa using hp))
      · intro k r hk hr hno
        cases k with
        | zero =>
          simp only [List.getElem?_cons_zero, Option.some.injEq] at hk
          subst hk
          exact absurd hr he
        | succ k =>
          simp only [List.getElem?_cons_succ] at hk ⊢
          exact h4 k r hk hr (fun m p hm hp => hno (m + 1) p (by omega) (by simpa using hp))

/-- The cleaning pass ends the process at the first element that ends inside
a quoted span, when the elements before it are cleaned. -/
theorem clean_up_tokens_exit (pre : List t_token) (t : t_token) (post : List t_token)
    (hpre : ∀ p ∈ pre, p.element ≠ [DQUOTE, DQUOTE]
      ∧ quote_state QuoteState.outside p.element = QuoteState.outside)
    (ht : quote_state QuoteState.outside t.element ≠ QuoteState.outside) :
    clean_up_tokens (pre ++ t :: post)
      = Outcome.exit "Error: Unmatched quotes\n" EXIT_FAILURE := by
  induction pre with
  | nil =>
    have hne : t.element ≠ [DQUOTE, DQUOTE] := by
      intro he
      apply ht
      rw [he]
      decide
    rw [List.nil_append, clean_up_tokens, if_neg hne, clean_up_quotes_unbalanced t.element ht]
    rfl
  | cons p pre ih =>
    obtain ⟨h1, h2⟩ := hpre p (by simp)
    rw [List.cons_append, clean_up_tokens, if_neg h1, clean_up_quotes_balanced p.element h2,
      ih (fun x hx => hpre x (by simp [hx]))]
    rfl

/-! ## Claims -/

/-- C1: when `count_del_quotes` returns `n` on an element, `clean_up_quotes`
returns the element without its delimiting quotes: the result is what is left
of the element, in order, once each quote that opens a span and the next quote
of the same kind that closes it are removed; the `n` counted delimiters are
the only characters dropped. -/
theorem clean_up_quotes_removes_delimiters (element : List Char) (n : Nat)
    (h : count_del_quotes element = Outcome.ret n) :
    clean_up_quotes element
        = Outcome.ret (strip_delimiters QuoteState.outside element)
      ∧ List.Sublist (strip_delimiters QuoteState.outside element) element
      ∧ (strip_delimiters QuoteState.outside element).length + n = element.length := by
  have hbal : quote_state QuoteState.outside element = QuoteState.outside := by
    by_contra hc
    rw [count_del_quotes_unbalanced element hc] at h
    exact Outcome.noConfusion h
  have hn : n = count_delimiters QuoteState.outside element := by
    rw [count_del_quotes_balanced element hbal] at h
    exact (Outcome.ret.inj h).symm
  refine ⟨clean_up_quotes_balanced element hbal, strip_delimiters_sublist _ _, ?_⟩
  rw [hn]
  exact strip_delimiters_length element QuoteState.outside

/-- Witness of C1 on the element `"it's"'a"b'`. -/
theorem clean_up_quotes_removes_delimiters_witness :
    count_del_quotes [DQUOTE, 'i', 't', SQUOTE, 's', DQUOTE, SQUOTE, 'a', DQUOTE, 'b', SQUOTE]
        = Outcome.ret 4
      ∧ clean_up_quotes
          [DQUOTE, 'i', 't', SQUOTE, 's', DQUOTE, SQUOTE, 'a', DQUOTE, 'b', SQUOTE]
        = Outcome.ret ['i', 't', SQUOTE, 's', 'a', DQUOTE, 'b'] :=
  ⟨by decide,
   (clean_up_quotes_removes_delimiters
      [DQUOTE, 'i', 't', SQUOTE, 's', DQUOTE, SQUOTE, 'a', DQUOTE, 'b', SQUOTE] 4
      (by decide)).1.trans (by decide)⟩

/-- C2: for every non-empty `w` without double quote and without `$`,
`tokenize` on the line `echo "w"` returns the two tokens `echo` and `w`. -/
theorem tokenize_echo_quoted (hv : List Char → Bool) (ril : List Char → List Char)
    (hhv : ∀ e, '$' ∉ e → hv e = false) (w : List Char) (fuel : Nat)
    (hne : w ≠ []) (hdq : DQUOTE ∉ w) (hvar : '$' ∉ w) (hf : 4 ≤ fuel) :
    tokenize hv ril fuel (echo_quoted w)
      = Outcome.ret [create_new_token ['e', 'c', 'h', 'o'], create_new_token w] := by
  obtain ⟨f, rfl⟩ : ∃ f, fuel = f + 4 := ⟨fuel - 4, by omega⟩
  have hline : echo_quoted w
      = ['e', 'c', 'h', 'o'] ++ ' ' :: (DQUOTE :: (w ++ [DQUOTE])) := by
    simp [echo_quoted]
  have hlen : compute_len (DQUOTE :: (w ++ [DQUOTE])) = (DQUOTE :: (w ++ [DQUOTE])).length := by
    rw [compute_len_eq, free_space_offset, if_neg (fun h => by simp [DQUOTE] at h)]
    have hs : quote_step QuoteState.outside DQUOTE = QuoteState.in_double := by decide
    rw [hs, free_space_offset_in_double w hdq []]
    simp [free_space_offset]
  have hget : get_element (DQUOTE :: (w ++ [DQUOTE])) = DQUOTE :: (w ++ [DQUOTE]) := by
    rw [get_element, hlen]; exact List.take_length _
  have hvq : hv (DQUOTE :: (w ++ [DQUOTE])) = false := by
    apply hhv
    simp only [List.mem_cons, List.mem_append, List.mem_singleton, not_or]
    exact ⟨by decide, hvar, by decide, by simp⟩
  have hraw : tokenize_loop hv ril (f + 4) (echo_quoted w) []
      = Outcome.ret [create_new_token ['e', 'c', 'h', 'o'],
          create_new_token (DQUOTE :: (w ++ [DQUOTE]))] := by
    rw [hline, tokenize_loop_word hv ril (f + 3) ['e', 'c', 'h', 'o'] _ [] (by simp)
        (by decide) (Or.inr ⟨_, rfl⟩) (hhv _ (by decide)),
      tokenize_loop_skip hv ril (f + 2) ' ' _ _ (by decide),
      tokenize_loop_token hv ril (f + 1) DQUOTE _ _ (by decide) (by rw [hget]; exact hvq),
      hget, hlen, List.drop_length]
    simp [tokenize_loop]
  have hb := quote_state_in_double w hdq
  have hclean : clean_up_tokens [create_new_token ['e', 'c', 'h', 'o'],
        create_new_token (DQUOTE :: (w ++ [DQUOTE]))]
      = Outcome.ret [create_new_token ['e', 'c', 'h', 'o'], create_new_token w] := by
    rw [clean_up_tokens_all]
    · have h1 : strip_delimiters QuoteState.outside ['e', 'c', 'h', 'o']
          = ['e', 'c', 'h', 'o'] := by decide
      have h2 : strip_delimiters QuoteState.outside (DQUOTE :: (w ++ [DQUOTE])) = w := by
        rw [strip_delimiters]
        have hs : quote_step QuoteState.outside DQUOTE = QuoteState.in_double := by decide
        have hd : is_delimiter QuoteState.outside DQUOTE = true := by decide
        rw [hd, hs, if_pos rfl, hb.2]
      simp [create_new_token, h1, h2]
    · intro r hr
      simp only [List.mem_cons, List.mem_singleton, List.not_mem_nil, or_false] at hr
      rcases hr with rfl | rfl
      · exact ⟨by decide, by decide⟩
      · refine ⟨?_, ?_⟩
        · simp only [create_new_token]
          intro he
          have h3 : w ++ [DQUOTE] = [] ++ [DQUOTE] := (List.cons.inj he).2
          exact hne (List.append_cancel_right h3)
        · simp only [create_new_token]
          rw [quote_state_cons]
          have hs : quote_step QuoteState.outside DQUOTE = QuoteState.in_double := by decide
          rw [hs, hb.1]
  rw [tokenize, hraw]
  exact hclean

/-- Witness of C2 on the line `echo "it's fine"`. -/
theorem tokenize_echo_quoted_witness :
    tokenize (fun e => decide ('$' ∈ e)) id 4
        (echo_quoted ['i', 't', SQUOTE, 's', ' ', 'f', 'i', 'n', 'e'])
      = Outcome.ret [create_new_token ['e', 'c', 'h', 'o'],
          create_new_token ['i', 't', SQUOTE, 's', ' ', 'f', 'i', 'n', 'e']] :=
  tokenize_echo_quoted (fun e => decide ('$' ∈ e)) id (fun e he => by simp [he])
    ['i', 't', SQUOTE, 's', ' ', 'f', 'i', 'n', 'e'] 4 (by decide) (by decide) (by decide)
    (by decide)

/-- C3: for every list of non-empty tokens without whitespace, quote nor `$`,
`tokenize` on the tokens joined by single spaces returns that list. -/
theorem tokenize_round_trip (hv : List Char → Bool) (ril : List Char → List Char)
    (hhv : ∀ e, '$' ∉ e → hv e = false) (tokens : List (List Char)) (fuel : Nat)
    (h : ∀ t ∈ tokens, t ≠ []
      ∧ ∀ c ∈ t, ¬ is_whitespace c ∧ c ≠ SQUOTE ∧ c ≠ DQUOTE ∧ c ≠ '$')
    (hf : (List.intercalate [' '] tokens).length < fuel) :
    tokenize hv ril fuel (List.intercalate [' '] tokens)
      = Outcome.ret (tokens.map create_new_token) := by
  rw [tokenize, tokenize_loop_words hv ril hhv tokens h [] fuel hf]
  simp only [List.nil_append, Outcome.bind]
  rw [clean_up_tokens_all]
  · congr 1
    rw [List.map_map]
    apply List.map_congr_left
    intro t ht
    have := (quote_state_word t (fun c hc => ⟨((h t ht).2 c hc).2.1, ((h t ht).2 c hc).2.2.1⟩)).2
    simp [create_new_token, this]
  · intro r hr
    obtain ⟨t, ht, rfl⟩ := List.mem_map.mp hr
    have hq := quote_state_word t (fun c hc => ⟨((h t ht).2 c hc).2.1, ((h t ht).2 c hc).2.2.1⟩)
    refine ⟨?_, hq.1⟩
    simp only [create_new_token]
    intro he
    have := ((h t ht).2 DQUOTE (by simp [he])).2.2.1
    exact this rfl

/-- Witness of C3 on the tokens `ls`, `-l`, `a|b`. -/
theorem tokenize_round_trip_witness :
    tokenize (fun e => decide ('$' ∈ e)) id 10
        (List.intercalate [' '] [['l', 's'], ['-', 'l'], ['a', '|', 'b']])
      = Outcome.ret ([['l', 's'], ['-', 'l'], ['a', '|', 'b']].map create_new_token) :=
  tokenize_round_trip (fun e => decide ('$' ∈ e)) id (fun e he => by simp [he])
    [['l', 's'], ['-', 'l'], ['a', '|', 'b']] 10 (by decide) (by decide)

/-- C4: on the line `"" "a` the last double quote is still open at the end of
the line, and `tokenize` returns the two tokens `""` and `"a` instead of
failing. -/
theorem tokenize_open_quote_after_empty_quotes (ril : List Char → List Char) :
    quote_state QuoteState.outside [DQUOTE, DQUOTE, ' ', DQUOTE, 'a'] = QuoteState.in_double
      ∧ tokenize (fun e => decide ('$' ∈ e)) ril 5 [DQUOTE, DQUOTE, ' ', DQUOTE, 'a']
        = Outcome.ret [create_new_token [DQUOTE, DQUOTE], create_new_token [DQUOTE, 'a']] :=
  ⟨by decide, by rfl⟩

/-- C5 (as stated, refuted): the line `echo ""` has balanced quotes and no
variable; its raw runs are `echo` and `""`; `tokenize` returns the second
token as `""`, while `clean_up_quotes` of that run is the empty string. -/
theorem tokenize_keeps_empty_quotes :
    quote_state QuoteState.outside ['e', 'c', 'h', 'o', ' ', DQUOTE, DQUOTE]
        = QuoteState.outside
      ∧ tokenize_loop (fun e => decide ('$' ∈ e)) id 8
          ['e', 'c', 'h', 'o', ' ', DQUOTE, DQUOTE] []
        = Outcome.ret [create_new_token ['e', 'c', 'h', 'o'],
            create_new_token [DQUOTE, DQUOTE]]
      ∧ tokenize (fun e => decide ('$' ∈ e)) id 8 ['e', 'c', 'h', 'o', ' ', DQUOTE, DQUOTE]
        = Outcome.ret [create_new_token ['e', 'c', 'h', 'o'],
            create_new_token [DQUOTE, DQUOTE]]
      ∧ clean_up_quotes [DQUOTE, DQUOTE] = Outcome.ret [] := by
  decide

/-- C5 (amended): for every line with balanced quotes and no variable,
`tokenize` returns one token per raw run; every token whose raw run is not
`""` and comes after no raw run equal to `""` is the `clean_up_quotes` form of
its raw run, that is the run without its delimiting quotes; and the first raw
run equal to `""` is returned as it is. -/
theorem tokenize_cleans_before_empty_quotes (hv : List Char → Bool)
    (ril : List Char → List Char) (hhv : ∀ e, '$' ∉ e → hv e = false)
    (line : List Char) (fuel : Nat) (hvar : '$' ∉ line)
    (hbal : quote_state QuoteState.outside line = QuoteState.outside)
    (hf : line.length < fuel) :
    ∃ raw toks, tokenize_loop hv ril fuel line [] = Outcome.ret raw
      ∧ tokenize hv ril fuel line = Outcome.ret toks
      ∧ toks.length = raw.length
      ∧ (∀ (k : Nat) (r : t_token), raw[k]? = some r →
          (∀ (m : Nat) (p : t_token), m ≤ k → raw[m]? = some p →
            p.element ≠ [DQUOTE, DQUOTE]) →
          ∃ t, toks[k]? = some t
            ∧ clean_up_quotes r.element = Outcome.ret t.element
            ∧ t.element = strip_delimiters QuoteState.outside r.element)
      ∧ (∀ (k : Nat) (r : t_token), raw[k]? = some r → r.element = [DQUOTE, DQUOTE] →
          (∀ (m : Nat) (p : t_token), m < k → raw[m]? = some p →
            p.element ≠ [DQUOTE, DQUOTE]) →
          toks[k]? = some r) := by
  obtain ⟨w0, segs, h1, _, _, _, h5⟩ :=
    tokenize_loop_runs hv ril hhv line.length line [] fuel (le_refl _) hvar hf
  rw [List.nil_append] at h1
  have hall : ∀ r ∈ segs.map (fun p => create_new_token p.1),
      quote_state QuoteState.outside r.element = QuoteState.outside := by
    intro r hr
    obtain ⟨p, hp, rfl⟩ := List.mem_map.mp hr
    exact h5 hbal p hp
  obtain ⟨toks, c1, c2, c3, c4⟩ := clean_up_tokens_before_empty _ hall
  refine ⟨_, toks, h1, ?_, c2, c3, c4⟩
  rw [tokenize, h1]
  exact c1

/-- Witness of C5 (amended) on the line `'a b' "" "c"`. -/
theorem tokenize_cleans_before_empty_quotes_witness :
    ∃ raw toks, tokenize_loop (fun e => decide ('$' ∈ e)) id 13
          [SQUOTE, 'a', ' ', 'b', SQUOTE, ' ', DQUOTE, DQUOTE, ' ', DQUOTE, 'c', DQUOTE] []
        = Outcome.ret raw
      ∧ tokenize (fun e => decide ('$' ∈ e)) id 13
          [SQUOTE, 'a', ' ', 'b', SQUOTE, ' ', DQUOTE, DQUOTE, ' ', DQUOTE, 'c', DQUOTE]
        = Outcome.ret toks
      ∧ toks.length = raw.length
      ∧ (∀ (k : Nat) (r : t_token), raw[k]? = some r →
          (∀ (m : Nat) (p : t_token), m ≤ k → raw[m]? = some p →
            p.element ≠ [DQUOTE, DQUOTE]) →
          ∃ t, toks[k]? = some t
            ∧ clean_up_quotes r.element = Outcome.ret t.element
            ∧ t.element = strip_delimiters QuoteState.outside r.element)
      ∧ (∀ (k : Nat) (r : t_token), raw[k]? = some r → r.element = [DQUOTE, DQUOTE] →
          (∀ (m : Nat) (p : t_token), m < k → raw[m]? = some p →
            p.element ≠ [DQUOTE, DQUOTE]) →
          toks[k]? = some r) :=
  tokenize_cleans_before_empty_quotes (fun e => decide ('$' ∈ e)) id
    (fun e he => by simp [he])
    [SQUOTE, 'a', ' ', 'b', SQUOTE, ' ', DQUOTE, DQUOTE, ' ', DQUOTE, 'c', DQUOTE] 13
    (by decide) (by decide) (by decide)

/-- C6 (as stated, refuted): on the string `"'" x` the scanner stops at
index 3, the space after the closed double-quoted span, while the single quote
before that space makes the independent count of single quotes odd: the index
of the specification is 5, the length. -/
theorem compute_len_not_independent :
    compute_len [DQUOTE, SQUOTE, DQUOTE, ' ', 'x'] = 3
      ∧ first_space_independent [DQUOTE, SQUOTE, DQUOTE, ' ', 'x'] = 5 := by
  decide

/-- C6 (amended): `compute_len s` is the index of the first space of `s` read
outside every quoted span (a quote met outside a span opens one, the next
quote of the same kind closes it, a quote of the other kind inside a span does
not count), or the length of `s` without such a space. -/
theorem compute_len_first_free_space (s : List Char) :
    compute_len s ≤ s.length
      ∧ (∀ i, i < compute_len s →
          ¬ (s[i]? = some ' '
            ∧ quote_state QuoteState.outside (s.take i) = QuoteState.outside))
      ∧ (compute_len s < s.length →
          s[compute_len s]? = some ' '
            ∧ quote_state QuoteState.outside (s.take (compute_len s))
              = QuoteState.outside) := by
  rw [compute_len_eq]
  refine ⟨free_space_offset_le s _, ?_, ?_⟩
  · intro i hi
    simpa using free_space_offset_first s QuoteState.outside i hi
  · intro h
    simpa using free_space_offset_stop s QuoteState.outside h

/-- C7: for every line without variable the loop of `tokenize` returns, and
the raw runs it appended are, in order, `t1 .. tn` with
`line = w0 ++ t1 ++ w1 ++ .. ++ tn ++ wn` where every `wi` is whitespace. -/
theorem tokenize_runs_partition_line (hv : List Char → Bool)
    (ril : List Char → List Char) (hhv : ∀ e, '$' ∉ e → hv e = false)
    (line : List Char) (fuel : Nat) (hvar : '$' ∉ line) (hf : line.length < fuel) :
    ∃ (w0 : List Char) (segs : List (List Char × List Char)),
      tokenize_loop hv ril fuel line []
        = Outcome.ret (segs.map (fun p => create_new_token p.1))
      ∧ line = w0 ++ (segs.map (fun p => p.1 ++ p.2)).flatten
      ∧ (∀ c ∈ w0, is_whitespace c)
      ∧ (∀ p ∈ segs, ∀ c ∈ p.2, is_whitespace c) := by
  obtain ⟨w0, segs, h1, h2, h3, h4, _⟩ :=
    tokenize_loop_runs hv ril hhv line.length line [] fuel (le_refl _) hvar hf
  rw [List.nil_append] at h1
  refine ⟨w0, segs, h1, h2, ?_, ?_⟩
  · intro c hc
    by_contra hn
    exact h3 c hc ((starts_token_iff c).mpr hn)
  · intro p hp c hc
    by_contra hn
    exact (h4 p hp).2 c hc ((starts_token_iff c).mpr hn)

/-- Witness of C7 on the line ` ls  "a b"`. -/
theorem tokenize_runs_partition_line_witness :
    ∃ (w0 : List Char) (segs : List (List Char × List Char)),
      tokenize_loop (fun e => decide ('$' ∈ e)) id 11
          [' ', 'l', 's', ' ', ' ', DQUOTE, 'a', ' ', 'b', DQUOTE] []
        = Outcome.ret (segs.map (fun p => create_new_token p.1))
      ∧ [' ', 'l', 's', ' ', ' ', DQUOTE, 'a', ' ', 'b', DQUOTE]
        = w0 ++ (segs.map (fun p => p.1 ++ p.2)).flatten
      ∧ (∀ c ∈ w0, is_whitespace c)
      ∧ (∀ p ∈ segs, ∀ c ∈ p.2, is_whitespace c) :=
  tokenize_runs_partition_line (fun e => decide ('$' ∈ e)) id (fun e he => by simp [he])
    [' ', 'l', 's', ' ', ' ', DQUOTE, 'a', ' ', 'b', DQUOTE] 11 (by decide) (by decide)

/-- C8: on the line `$HOME`, whose element has a variable, `add_token` returns
what `replace_in_line` gives for the line and leaves the token list as it
was: no token is appended. -/
theorem add_token_variable_appends_nothing (ril : List Char → List Char)
    (tokenlist : List t_token) :
    add_token (fun e => decide ('$' ∈ e)) ril ['$', 'H', 'O', 'M', 'E'] tokenlist
      = (ril ['$', 'H', 'O', 'M', 'E'], tokenlist) := by
  have h : (fun e : List Char => decide ('$' ∈ e)) (get_element ['$', 'H', 'O', 'M', 'E'])
      = true := by decide
  unfold add_token
  simp only [h, if_true]

/-- C9 (as stated, refuted): on the line `"a` the unmatched quote is detected
and the process ends through `exit(EXIT_FAILURE)`; nothing is returned. -/
theorem tokenize_unmatched_quote_ends_process :
    tokenize (fun e => decide ('$' ∈ e)) id 3 [DQUOTE, 'a']
      = Outcome.exit "Error: Unmatched quotes\n" EXIT_FAILURE := by
  decide

/-- C9 (amended): when `tokenize` detects unmatched quotes, that is when the
cleaning pass reaches an element on which `count_del_quotes` does not return,
the interpreter process prints the error and ends through
`exit(EXIT_FAILURE)`; no result is returned for the line. -/
theorem tokenize_unmatched_quotes_exit (hv : List Char → Bool)
    (ril : List Char → List Char) (fuel : Nat) (line : List Char)
    (pre : List t_token) (t : t_token) (post : List t_token)
    (hraw : tokenize_loop hv ril fuel line [] = Outcome.ret (pre ++ t :: post))
    (hpre : ∀ p ∈ pre, p.element ≠ [DQUOTE, DQUOTE]
      ∧ ∃ n, count_del_quotes p.element = Outcome.ret n)
    (ht : ∀ n, count_del_quotes t.element ≠ Outcome.ret n) :
    tokenize hv ril fuel line
      = Outcome.exit "Error: Unmatched quotes\n" EXIT_FAILURE := by
  have hun : quote_state QuoteState.outside t.element ≠ QuoteState.outside := by
    intro hb
    exact ht _ (count_del_quotes_balanced t.element hb)
  rw [tokenize, hraw]
  exact clean_up_tokens_exit pre t post
    (fun p hp => ⟨(hpre p hp).1,
      (hpre p hp).2.elim fun n hn => count_del_quotes_ret_balanced p.element n hn⟩) hun

/-- Witness of C9 (amended) on the line `ls "a`. -/
theorem tokenize_unmatched_quotes_exit_witness :
    tokenize (fun e => decide ('$' ∈ e)) id 6 ['l', 's', ' ', DQUOTE, 'a']
      = Outcome.exit "Error: Unmatched quotes\n" EXIT_FAILURE :=
  tokenize_unmatched_quotes_exit (fun e => decide ('$' ∈ e)) id 6
    ['l', 's', ' ', DQUOTE, 'a'] [create_new_token ['l', 's']]
    (create_new_token [DQUOTE, 'a']) [] (by decide)
    (fun p hp => by
      simp only [List.mem_singleton] at hp
      subst hp
      exact ⟨by decide, 0, by decide⟩)
    (fun n => by
      have h : count_del_quotes (create_new_token [DQUOTE, 'a']).element
          = Outcome.exit "Error: Unmatched quotes\n" EXIT_FAILURE := by decide
      rw [h]
      exact fun hc => Outcome.noConfusion hc)

/-- C10: when `check_and_exec_single_builtin` reports that the line was a
single builtin, `exec_expression` makes no call to `fork` nor to `signal`, and
returns 0. -/
theorem exec_expression_single_builtin (x : Extern) (nb_pipe index : Int)
    (args : List (List Char)) (h : x.check_and_exec_single_builtin = true) :
    Event.fork ∉ (exec_expression x nb_pipe index args).events
      ∧ Event.signal_sigint_ign ∉ (exec_expression x nb_pipe index args).events
      ∧ (exec_expression x nb_pipe index args).ending = Ending.returned (some 0) := by
  unfold exec_expression
  rw [if_pos h]
  exact ⟨by decide, by decide, rfl⟩

/-- Witness of C10 on the line `cd /tmp`. -/
theorem exec_expression_single_builtin_witness :
    Event.fork ∉ (exec_expression single_builtin_answers 0 0
          [['c', 'd'], ['/', 't', 'm', 'p']]).events
      ∧ Event.signal_sigint_ign ∉ (exec_expression single_builtin_answers 0 0
          [['c', 'd'], ['/', 't', 'm', 'p']]).events
      ∧ (exec_expression single_builtin_answers 0 0
          [['c', 'd'], ['/', 't', 'm', 'p']]).ending = Ending.returned (some 0) :=
  exec_expression_single_builtin single_builtin_answers 0 0
    [['c', 'd'], ['/', 't', 'm', 'p']] rfl

/-! ## Execution of one expression -/

theorem string_at_suffix (cmd : List Char)
    (h : ¬ cmd.length < SLASH_MINISHELL.length) :
    string_at cmd ((cmd.length : Int) - (SLASH_MINISHELL.length : Int))
      = Outcome.ret (cmd.drop (cmd.length - SLASH_MINISHELL.length)) := by
  have h1 : (0 : Int) ≤ (cmd.length : Int) - (SLASH_MINISHELL.length : Int)
      ∧ (cmd.length : Int) - (SLASH_MINISHELL.length : Int) ≤ (cmd.length : Int) := by
    constructor <;> omega
  have h2 : ((cmd.length : Int) - (SLASH_MINISHELL.length : Int)).toNat
      = cmd.length - SLASH_MINISHELL.length := by omega
  rw [string_at, if_pos h1, h2]

/-- The value of `is_minishell` on a string. -/
theorem is_minishell_some (x : Extern) (cmd : List Char) :
    is_minishell x (some cmd)
      = Outcome.ret (decide (List.IsSuffix SLASH_MINISHELL cmd ∧ x.access_x_ok cmd = true)) := by
  unfold is_minishell
  by_cases hlen : cmd.length < SLASH_MINISHELL.length
  · have hns : ¬ List.IsSuffix SLASH_MINISHELL cmd := fun hs => by
      have := hs.length_le
      omega
    simp [hlen, hns]
  · by_cases hacc : x.access_x_ok cmd = true
    · simp only [hlen, if_false, hacc, if_true, string_at_suffix cmd hlen, Outcome.bind]
      by_cases htail : cmd.drop (cmd.length - SLASH_MINISHELL.length) = SLASH_MINISHELL
      · have hs : List.IsSuffix SLASH_MINISHELL cmd := List.suffix_iff_eq_drop.mpr htail.symm
        simp [htail, hs]
      · have hs : ¬ List.IsSuffix SLASH_MINISHELL cmd := fun hs =>
          htail (List.suffix_iff_eq_drop.mp hs).symm
        simp [htail, hs]
    · simp [hlen, hacc]

/-- A call of `is_minishell` returns: it never leaves the string. -/
theorem is_minishell_returns (x : Extern) (cmd : Option (List Char)) :
    is_minishell x cmd = Outcome.ret true ∨ is_minishell x cmd = Outcome.ret false := by
  cases cmd with
  | none => right; rfl
  | some c =>
    rw [is_minishell_some]
    by_cases h : List.IsSuffix SLASH_MINISHELL c ∧ x.access_x_ok c = true
    · left; simp [h]
    · right; simp [h]

/-- The run of `exec_expression` in the parent, after a successful `fork`. -/
theorem exec_expression_parent (x : Extern) (nb_pipe index : Int) (args : List (List Char))
    (hc : x.check_and_exec_single_builtin = false) (hf : 0 < x.fork) :
    (is_minishell x args.head? = Outcome.ret true →
        exec_expression x nb_pipe index args
          = { events := [Event.check_and_exec_single_builtin, Event.fork,
                Event.signal_sigint_ign],
              ending := Ending.returned (if nb_pipe = index then some x.fork else none) })
      ∧ (is_minishell x args.head? = Outcome.ret false →
        exec_expression x nb_pipe index args
          = { events := [Event.check_and_exec_single_builtin, Event.fork],
              ending := Ending.returned (if nb_pipe = index then some x.fork else none) }) := by
  have hne : x.fork ≠ 0 := by omega
  constructor <;> intro hm <;> simp [exec_expression, hc, hne, hf, hm]

/-- The run of `exec_expression` in the child. -/
theorem exec_expression_child (x : Extern) (nb_pipe index : Int) (args : List (List Char))
    (hc : x.check_and_exec_single_builtin = false) (hf : x.fork = 0) :
    exec_expression x nb_pipe index args
      = { events := Event.check_and_exec_single_builtin :: Event.fork
            :: (execute_child_process x index args).events,
          ending := match (execute_child_process x index args).ending with
            | Ending.returned g_status => Ending.exited g_status
            | Ending.exited status => Ending.exited status
            | Ending.replaced => Ending.replaced
            | Ending.fault => Ending.fault } := by
  simp [exec_expression, hc, hf]

/-- The run of `execute_child_process` when `configure_io` succeeds on a
builtin. -/
theorem execute_child_process_builtin (x : Extern) (index : Int) (args : List (List Char))
    (hio : x.configure_io index = true)
    (ht : x.type (x.cut_arrays_into_expression args index).head? = t_type.BUILTIN) :
    (execute_child_process x index args).events
        = [Event.configure_io index,
            Event.exec_builtins (x.cut_arrays_into_expression args index)]
      ∧ (execute_child_process x index args).ending
        = (match x.exec_builtins (x.cut_arrays_into_expression args index) with
            | builtin_end.returns _ => Ending.returned 1
            | builtin_end.exits status => Ending.exited status) := by
  unfold execute_child_process
  simp only [hio, ht, if_true]
  cases x.exec_builtins (x.cut_arrays_into_expression args index) <;> exact ⟨rfl, rfl⟩

/-- The run of `execute_child_process` when `configure_io` succeeds on a
program. -/
theorem execute_child_process_command (x : Extern) (index : Int) (args : List (List Char))
    (hio : x.configure_io index = true)
    (ht : x.type (x.cut_arrays_into_expression args index).head? = t_type.COMMAND) :
    (execute_child_process x index args).events
        = [Event.configure_io index,
            Event.execve (x.get_path_cmd (x.cut_arrays_into_expression args index).head?)
              (x.cut_arrays_into_expression args index) x.env_list_to_array]
      ∧ (execute_child_process x index args).ending
        = (if x.execve_fails then Ending.exited 1 else Ending.replaced) := by
  unfold execute_child_process exec_command
  simp only [hio, ht, if_true]
  cases x.execve_fails <;> exact ⟨rfl, rfl⟩

/-- The run of `execute_child_process` when `configure_io` succeeds on a word
that is neither a builtin nor a program. -/
theorem execute_child_process_invalid (x : Extern) (index : Int) (args : List (List Char))
    (hio : x.configure_io index = true)
    (hb : x.type (x.cut_arrays_into_expression args index).head? ≠ t_type.BUILTIN)
    (hk : x.type (x.cut_arrays_into_expression args index).head? ≠ t_type.COMMAND) :
    (execute_child_process x index args).events
        = [Event.configure_io index,
            Event.print_not_found (x.cut_arrays_into_expression args index).head?]
      ∧ (execute_child_process x index args).ending
        = Ending.exited (x.print_not_found (x.cut_arrays_into_expression args index).head?) := by
  unfold execute_child_process process_invalid
  rw [if_pos hio, if_neg hb, if_neg hk]
  exact ⟨rfl, rfl⟩

/-- The run of `execute_child_process` when `configure_io` fails. -/
theorem execute_child_process_io_failure (x : Extern) (index : Int) (args : List (List Char))
    (hio : x.configure_io index = false) :
    (execute_child_process x index args).events
        = [Event.configure_io index, Event.close_all_pipes]
      ∧ (execute_child_process x index args).ending = Ending.returned 1 := by
  unfold execute_child_process
  simp only [hio]
  exact ⟨rfl, rfl⟩

/-- C11: in a forked child whose `configure_io` succeeds, the calls made are
`configure_io` and then exactly one action chosen by the type of the first
word of the stage: `exec_builtins` on the stage for a builtin; `execve` with
the path given by `get_path_cmd` for that word, the words of the stage and the
environment array for a program; `print_not_found` and the end of the process
for anything else. -/
theorem exec_expression_child_dispatch (x : Extern) (nb_pipe index : Int)
    (args : List (List Char))
    (hc : x.check_and_exec_single_builtin = false) (hf : x.fork = 0)
    (hio : x.configure_io index = true) :
    (x.type (x.cut_arrays_into_expression args index).head? = t_type.BUILTIN →
        (exec_expression x nb_pipe index args).events
          = [Event.check_and_exec_single_builtin, Event.fork, Event.configure_io index,
              Event.exec_builtins (x.cut_arrays_into_expression args index)])
      ∧ (x.type (x.cut_arrays_into_expression args index).head? = t_type.COMMAND →
        (exec_expression x nb_pipe index args).events
          = [Event.check_and_exec_single_builtin, Event.fork, Event.configure_io index,
              Event.execve (x.get_path_cmd (x.cut_arrays_into_expression args index).head?)
                (x.cut_arrays_into_expression args index) x.env_list_to_array])
      ∧ (x.type (x.cut_arrays_into_expression args index).head? ≠ t_type.BUILTIN →
          x.type (x.cut_arrays_into_expression args index).head? ≠ t_type.COMMAND →
        (exec_expression x nb_pipe index args).events
            = [Event.check_and_exec_single_builtin, Event.fork, Event.configure_io index,
                Event.print_not_found (x.cut_arrays_into_expression args index).head?]
          ∧ (exec_expression x nb_pipe index args).ending
            = Ending.exited
                (x.print_not_found (x.cut_arrays_into_expression args index).head?)) := by
  rw [exec_expression_child x nb_pipe index args hc hf]
  refine ⟨fun ht => ?_, fun ht => ?_, fun hb hk => ?_⟩
  · simp only [(execute_child_process_builtin x index args hio ht).1]
  · simp only [(execute_child_process_command x index args hio ht).1]
  · obtain ⟨h1, h2⟩ := execute_child_process_invalid x index args hio hb hk
    simp only [h1, h2, and_self]

/-- Witness of C11 on stage 1 of the line `echo hi | wc`. -/
theorem exec_expression_child_dispatch_witness :
    (exec_expression child_answers 1 1 echo_wc_args).events
      = [Event.check_and_exec_single_builtin, Event.fork, Event.configure_io 1,
          Event.execve (some ['/', 'b', 'i', 'n', '/', 'w', 'c']) [['w', 'c']]
            [['H', 'O', 'M', 'E', '=', '/']]] :=
  ((exec_expression_child_dispatch child_answers 1 1 echo_wc_args rfl rfl rfl).2.1
    (by decide)).trans (by decide)

/-- C12: in the child forked for the builtin stage `echo hi` of the line
`echo hi | wc`, `exec_builtins` returns with 0 in `g_status`, and the child
ends through `exit(1)`. -/
theorem exec_expression_builtin_child_status :
    child_answers.type (child_answers.cut_arrays_into_expression echo_wc_args 0).head?
        = t_type.BUILTIN
      ∧ child_answers.exec_builtins (child_answers.cut_arrays_into_expression echo_wc_args 0)
        = builtin_end.returns 0
      ∧ (exec_expression child_answers 1 0 echo_wc_args).ending = Ending.exited 1 := by
  decide

/-- C13 (as stated, refuted): in the parent, for stage 0 of the two stages of
`echo hi | wc`, `fork` gives the pid 42 and the value returned is that of
`pid_right`, which was never assigned. -/
theorem exec_expression_first_stage_pid :
    parent_answers.fork = 42
      ∧ (exec_expression parent_answers 1 0 echo_wc_args).ending = Ending.returned none := by
  decide

/-- C13 (amended): for the last stage of the line (`index` equal to
`nb_pipe`), when `fork` succeeds, the value `exec_expression` returns in the
parent is the pid that `fork` returned. -/
theorem exec_expression_last_stage_pid (x : Extern) (nb_pipe index : Int)
    (args : List (List Char))
    (hc : x.check_and_exec_single_builtin = false) (hf : 0 < x.fork)
    (hlast : nb_pipe = index) :
    (exec_expression x nb_pipe index args).ending = Ending.returned (some x.fork) := by
  obtain ⟨h1, h2⟩ := exec_expression_parent x nb_pipe index args hc hf
  rcases is_minishell_returns x args.head? with hm | hm
  · rw [h1 hm]; simp [hlast]
  · rw [h2 hm]; simp [hlast]

/-- Witness of C13 (amended) on stage 1 of the line `echo hi | wc`. -/
theorem exec_expression_last_stage_pid_witness :
    (exec_expression parent_answers 1 1 echo_wc_args).ending = Ending.returned (some 42) :=
  exec_expression_last_stage_pid parent_answers 1 1 echo_wc_args rfl (by decide) rfl

/-- C14 (as stated, refuted): for the single-stage line `wc`, `fork` succeeds
and the parent returns without a call to `signal`. -/
theorem exec_expression_no_sigint_for_wc :
    0 < parent_answers.fork
      ∧ (exec_expression parent_answers 0 0 [['w', 'c']]).events
        = [Event.check_and_exec_single_builtin, Event.fork] := by
  decide

/-- C14 (amended): after a successful `fork`, when `is_minishell` holds of the
first word of the line, the parent calls `signal(SIGINT, SIG_IGN)` and then
returns; on a single-stage line whose word is not the interpreter, the parent
makes no call to `signal`. -/
theorem exec_expression_sigint_gate (x : Extern) (nb_pipe index : Int)
    (args : List (List Char))
    (hc : x.check_and_exec_single_builtin = false) (hf : 0 < x.fork) :
    (is_minishell x args.head? = Outcome.ret true →
        (exec_expression x nb_pipe index args).events
            = [Event.check_and_exec_single_builtin, Event.fork, Event.signal_sigint_ign]
          ∧ ∃ v, (exec_expression x nb_pipe index args).ending = Ending.returned v)
      ∧ (nb_pipe = 0 → is_minishell x args.head? = Outcome.ret false →
        Event.signal_sigint_ign ∉ (exec_expression x nb_pipe index args).events) := by
  obtain ⟨h1, h2⟩ := exec_expression_parent x nb_pipe index args hc hf
  refine ⟨fun hm => ?_, fun _ hm => ?_⟩
  · rw [h1 hm]; exact ⟨rfl, _, rfl⟩
  · rw [h2 hm]
    simp

/-- Witness of C14 (amended) on the line `./minishell`. -/
theorem exec_expression_sigint_gate_witness :
    (exec_expression nested_answers 0 0 [DOT_SLASH_MINISHELL]).events
        = [Event.check_and_exec_single_builtin, Event.fork, Event.signal_sigint_ign]
      ∧ ∃ v, (exec_expression nested_answers 0 0 [DOT_SLASH_MINISHELL]).ending
          = Ending.returned v :=
  (exec_expression_sigint_gate nested_answers 0 0 [DOT_SLASH_MINISHELL] rfl
    (by decide)).1 (by decide)

/-- C15: in the forked child `exec_expression` never returns to its caller:
the builtin, the failed `execve`, the word not found and the failed
`configure_io` all end in `exit`; the only other end is the replacement of the
process image by a successful `execve`. -/
theorem exec_expression_child_never_returns (x : Extern) (nb_pipe index : Int)
    (args : List (List Char))
    (hc : x.check_and_exec_single_builtin = false) (hf : x.fork = 0) :
    (∀ v, (exec_expression x nb_pipe index args).ending ≠ Ending.returned v)
      ∧ ((∃ status, (exec_expression x nb_pipe index args).ending = Ending.exited status)
        ∨ ((exec_expression x nb_pipe index args).ending = Ending.replaced
          ∧ x.configure_io index = true
          ∧ x.type (x.cut_arrays_into_expression args index).head? = t_type.COMMAND
          ∧ x.execve_fails = false)) := by
  rw [exec_expression_child x nb_pipe index args hc hf]
  by_cases hio : x.configure_io index = true
  · by_cases hb : x.type (x.cut_arrays_into_expression args index).head? = t_type.BUILTIN
    · have h := (execute_child_process_builtin x index args hio hb).2
      simp only [h]
      cases x.exec_builtins (x.cut_arrays_into_expression args index) with
      | returns g => exact ⟨fun v hv => Ending.noConfusion hv, Or.inl ⟨1, rfl⟩⟩
      | exits st => exact ⟨fun v hv => Ending.noConfusion hv, Or.inl ⟨st, rfl⟩⟩
    · by_cases hk : x.type (x.cut_arrays_into_expression args index).head? = t_type.COMMAND
      · have h := (execute_child_process_command x index args hio hk).2
        simp only [h]
        cases hx : x.execve_fails with
        | true => exact ⟨fun v hv => Ending.noConfusion hv, Or.inl ⟨1, rfl⟩⟩
        | false => exact ⟨fun v hv => Ending.noConfusion hv, Or.inr ⟨rfl, hio, hk, rfl⟩⟩
      · have h := (execute_child_process_invalid x index args hio hb hk).2
        simp only [h]
        exact ⟨fun v hv => Ending.noConfusion hv, Or.inl ⟨_, rfl⟩⟩
  · have hio2 : x.configure_io index = false := by simpa using hio
    have h := (execute_child_process_io_failure x index args hio2).2
    simp only [h]
    exact ⟨fun v hv => Ending.noConfusion hv, Or.inl ⟨1, rfl⟩⟩

/-- Witness of C15 on stage 0 of the line `echo hi | wc`. -/
theorem exec_expression_child_never_returns_witness :
    (∀ v, (exec_expression child_answers 1 0 echo_wc_args).ending ≠ Ending.returned v)
      ∧ ((∃ status, (exec_expression child_answers 1 0 echo_wc_args).ending
            = Ending.exited status)
        ∨ ((exec_expression child_answers 1 0 echo_wc_args).ending = Ending.replaced
          ∧ child_answers.configure_io 0 = true
          ∧ child_answers.type (child_answers.cut_arrays_into_expression echo_wc_args 0).head?
            = t_type.COMMAND
          ∧ child_answers.execve_fails = false)) :=
  exec_expression_child_never_returns child_answers 1 0 echo_wc_args rfl rfl

/-- C16: in the child, when the stage is a program and `execve` comes back,
the process ends through `exit(1)`; when `configure_io` fails, the child calls
neither `exec_builtins` nor `execve`, calls `close_all_pipes`, and ends
through `exit(1)`. -/
theorem exec_expression_child_failures (x : Extern) (nb_pipe index : Int)
    (args : List (List Char))
    (hc : x.check_and_exec_single_builtin = false) (hf : x.fork = 0) :
    (x.configure_io index = true →
        x.type (x.cut_arrays_into_expression args index).head? = t_type.COMMAND →
        x.execve_fails = true →
        (exec_expression x nb_pipe index args).events
            = [Event.check_and_exec_single_builtin, Event.fork, Event.configure_io index,
                Event.execve (x.get_path_cmd (x.cut_arrays_into_expression args index).head?)
                  (x.cut_arrays_into_expression args index) x.env_list_to_array]
          ∧ (exec_expression x nb_pipe index args).ending = Ending.exited 1)
      ∧ (x.configure_io index = false →
        (exec_expression x nb_pipe index args).events
            = [Event.check_and_exec_single_builtin, Event.fork, Event.configure_io index,
                Event.close_all_pipes]
          ∧ (exec_expression x nb_pipe index args).ending = Ending.exited 1) := by
  rw [exec_expression_child x nb_pipe index args hc hf]
  refine ⟨fun hio hk hx => ?_, fun hio => ?_⟩
  · obtain ⟨h1, h2⟩ := execute_child_process_command x index args hio hk
    simp only [h1, h2, hx, if_true, and_self]
  · obtain ⟨h1, h2⟩ := execute_child_process_io_failure x index args hio
    simp only [h1, h2, and_self]

/-- Witness of C16 on stage 1 of the line `echo hi | wc`, where `execve`
comes back. -/
theorem exec_expression_child_failures_witness :
    (exec_expression child_answers 1 1 echo_wc_args).events
        = [Event.check_and_exec_single_builtin, Event.fork, Event.configure_io 1,
            Event.execve (child_answers.get_path_cmd
                (child_answers.cut_arrays_into_expression echo_wc_args 1).head?)
              (child_answers.cut_arrays_into_expression echo_wc_args 1)
              child_answers.env_list_to_array]
      ∧ (exec_expression child_answers 1 1 echo_wc_args).ending = Ending.exited 1 :=
  (exec_expression_child_failures child_answers 1 1 echo_wc_args rfl rfl).1
    rfl (by decide) rfl

/-- C20: `is_minishell` returns true exactly for a non-null `cmd` that ends
with `/minishell` and for which `access(cmd, X_OK)` succeeds, and false
otherwise; the call always returns, so the offset of the suffix is never
below zero when it is computed; a null `cmd`, a `cmd` shorter than
`/minishell` and the bare word `minishell` give false. -/
theorem is_minishell_spec (x : Extern) (cmd : Option (List Char)) :
    (is_minishell x cmd = Outcome.ret true ↔
        ∃ c, cmd = some c ∧ List.IsSuffix SLASH_MINISHELL c ∧ x.access_x_ok c = true)
      ∧ (is_minishell x cmd = Outcome.ret true ∨ is_minishell x cmd = Outcome.ret false)
      ∧ is_minishell x none = Outcome.ret false
      ∧ (∀ c : List Char, c.length < 10 → is_minishell x (some c) = Outcome.ret false)
      ∧ is_minishell x (some ['m', 'i', 'n', 'i', 's', 'h', 'e', 'l', 'l'])
        = Outcome.ret false
      ∧ (∀ c : List Char, ¬ c.length < 10 →
          string_at c ((c.length : Int) - (SLASH_MINISHELL.length : Int))
            = Outcome.ret (c.drop (c.length - 10))) := by
  have hshort : ∀ c : List Char, c.length < 10 →
      is_minishell x (some c) = Outcome.ret false := by
    intro c hlen
    have hns : ¬ List.IsSuffix SLASH_MINISHELL c := fun hs => by
      have := hs.length_le
      simp [SLASH_MINISHELL] at this
      omega
    rw [is_minishell_some]
    simp [hns]
  refine ⟨?_, is_minishell_returns x cmd, rfl, hshort, hshort _ (by decide), ?_⟩
  · cases cmd with
    | none =>
      constructor
      · intro h
        exact Outcome.noConfusion h (fun hb => Bool.noConfusion hb)
      · rintro ⟨c, hc, _⟩
        exact Option.noConfusion hc
    | some c =>
      rw [is_minishell_some]
      constructor
      · intro h
        have hd := Outcome.ret.inj h
        exact ⟨c, rfl, of_decide_eq_true hd⟩
      · rintro ⟨c2, hc, hs⟩
        cases hc
        rw [decide_eq_true hs]
  · intro c hlen
    exact string_at_suffix c hlen

/-! ## Termination and agreement of the scanners -/

/-- The cleaning pass returns or ends the process with the error of
`count_del_quotes`: it neither faults nor runs on. -/
theorem clean_up_tokens_ends (raw : List t_token) :
    (∃ toks, clean_up_tokens raw = Outcome.ret toks)
      ∨ clean_up_tokens raw = Outcome.exit "Error: Unmatched quotes\n" EXIT_FAILURE := by
  induction raw with
  | nil => exact Or.inl ⟨[], rfl⟩
  | cons r raw ih =>
    by_cases he : r.element = [DQUOTE, DQUOTE]
    · exact Or.inl ⟨r :: raw, by rw [clean_up_tokens, if_pos he]⟩
    · by_cases hb : quote_state QuoteState.outside r.element = QuoteState.outside
      · rcases ih with ⟨toks, ht⟩ | hx
        · left
          refine ⟨{ r with element := strip_delimiters QuoteState.outside r.element } :: toks,
            ?_⟩
          rw [clean_up_tokens, if_neg he, clean_up_quotes_balanced r.element hb, ht]
          rfl
        · right
          rw [clean_up_tokens, if_neg he, clean_up_quotes_balanced r.element hb, hx]
          rfl
      · right
        rw [clean_up_tokens, if_neg he, clean_up_quotes_unbalanced r.element hb]
        rfl

/-- On a line without variable every run but the last ends outside every
quoted span. -/
theorem tokenize_loop_runs_but_last (hv : List Char → Bool) (ril : List Char → List Char)
    (hhv : ∀ e, '$' ∉ e → hv e = false) :
    ∀ (n : Nat) (line : List Char) (toks : List t_token) (fuel : Nat),
    line.length ≤ n → '$' ∉ line → line.length < fuel →
    ∃ raw, tokenize_loop hv ril fuel line toks = Outcome.ret (toks ++ raw)
      ∧ ∀ r ∈ raw.dropLast,
          quote_state QuoteState.outside r.element = QuoteState.outside := by
  intro n
  induction n with
  | zero =>
    intro line toks fuel hn _ hf
    obtain ⟨f, rfl⟩ : ∃ f, fuel = f + 1 := ⟨fuel - 1, by omega⟩
    have hl : line = [] := List.length_eq_zero.mp (by omega)
    subst hl
    exact ⟨[], by simp [tokenize_loop], by simp⟩
  | succ n ih =>
    intro line toks fuel hn hd hf
    obtain ⟨f, rfl⟩ : ∃ f, fuel = f + 1 := ⟨fuel - 1, by omega⟩
    cases line with
    | nil => exact ⟨[], by simp [tokenize_loop], by simp⟩
    | cons c rest =>
      simp only [List.length_cons] at hn hf
      by_cases hc : starts_token c
      · have hpos := compute_len_pos c rest hc
        have hle := compute_len_le (c :: rest)
        have hrun : '$' ∉ get_element (c :: rest) :=
          fun hm => hd (List.mem_of_mem_take hm)
        have hrest : '$' ∉ (c :: rest).drop (compute_len (c :: rest)) :=
          fun hm => hd (List.mem_of_mem_drop hm)
        have hlen : ((c :: rest).drop (compute_len (c :: rest))).length
            = rest.length + 1 - compute_len (c :: rest) := by simp
        obtain ⟨raw, h1, h2⟩ :=
          ih ((c :: rest).drop (compute_len (c :: rest)))
            (toks ++ [create_new_token (get_element (c :: rest))]) f
            (by omega) hrest (by omega)
        refine ⟨create_new_token (get_element (c :: rest)) :: raw, ?_, ?_⟩
        · rw [tokenize_loop_token hv ril f c rest toks hc (hhv _ hrun), h1]
          simp
        · intro r hr
          cases raw with
          | nil => simp at hr
          | cons r1 raw1 =>
            rw [List.dropLast_cons₂] at hr
            rcases List.mem_cons.mp hr with rfl | hr
            · rcases Nat.lt_or_ge (compute_len (c :: rest)) (c :: rest).length with hlt | hge
              · exact get_element_balanced (c :: rest) hlt
              · exfalso
                have hdrop : (c :: rest).drop (compute_len (c :: rest)) = [] :=
                  List.drop_eq_nil_of_le hge
                rw [hdrop] at h1
                obtain ⟨f1, rfl⟩ : ∃ f1, f = f1 + 1 := ⟨f - 1, by omega⟩
                rw [tokenize_loop] at h1
                have h3 := Outcome.ret.inj h1
                have h4 := congrArg List.length h3
                simp at h4
            · exact h2 r hr
      · obtain ⟨raw, h1, h2⟩ :=
          ih rest toks f (by omega) (fun hm => hd (by simp [hm])) (by omega)
        exact ⟨raw, by rw [tokenize_loop_skip hv ril f c rest toks hc, h1], h2⟩

/-- C17: on a line without variable `tokenize` terminates: with a step budget
above the length of the line the loop returns, and `tokenize` returns or ends
the process with the unmatched-quotes error; every call of `add_token` made on
a character that starts a token (not whitespace) finds `compute_len` at least
1 and moves the line pointer forward by that many characters. -/
theorem tokenize_terminates (hv : List Char → Bool) (ril : List Char → List Char)
    (hhv : ∀ e, '$' ∉ e → hv e = false) (line : List Char) (fuel : Nat)
    (hvar : '$' ∉ line) (hf : line.length < fuel) :
    (∃ raw, tokenize_loop hv ril fuel line [] = Outcome.ret raw)
      ∧ ((∃ toks, tokenize hv ril fuel line = Outcome.ret toks)
        ∨ tokenize hv ril fuel line
          = Outcome.exit "Error: Unmatched quotes\n" EXIT_FAILURE)
      ∧ (∀ (c : Char) (rest : List Char) (toks : List t_token),
          starts_token c → '$' ∉ c :: rest →
          ¬ is_whitespace c
            ∧ 1 ≤ compute_len (c :: rest)
            ∧ (add_token hv ril (c :: rest) toks).1
              = (c :: rest).drop (compute_len (c :: rest))
            ∧ (add_token hv ril (c :: rest) toks).1.length < (c :: rest).length) := by
  obtain ⟨w0, segs, h1, _⟩ :=
    tokenize_loop_runs hv ril hhv line.length line [] fuel (le_refl _) hvar hf
  refine ⟨⟨_, h1⟩, ?_, ?_⟩
  · rw [tokenize, h1]
    exact clean_up_tokens_ends _
  · intro c rest toks hc hd
    have hpos := compute_len_pos c rest hc
    have hrun : '$' ∉ get_element (c :: rest) :=
      fun hm => hd (List.mem_of_mem_take hm)
    rw [add_token_plain hv ril (c :: rest) toks (hhv _ hrun)]
    refine ⟨(starts_token_iff c).mp hc, hpos, rfl, ?_⟩
    simp only [List.length_drop, List.length_cons]
    omega

/-- Witness of C17 on the line `ls "a b" 'c`. -/
theorem tokenize_terminates_witness :
    (∃ raw, tokenize_loop (fun e => decide ('$' ∈ e)) id 13
          ['l', 's', ' ', DQUOTE, 'a', ' ', 'b', DQUOTE, ' ', SQUOTE, 'c'] []
        = Outcome.ret raw)
      ∧ ((∃ toks, tokenize (fun e => decide ('$' ∈ e)) id 13
            ['l', 's', ' ', DQUOTE, 'a', ' ', 'b', DQUOTE, ' ', SQUOTE, 'c']
          = Outcome.ret toks)
        ∨ tokenize (fun e => decide ('$' ∈ e)) id 13
            ['l', 's', ' ', DQUOTE, 'a', ' ', 'b', DQUOTE, ' ', SQUOTE, 'c']
          = Outcome.exit "Error: Unmatched quotes\n" EXIT_FAILURE) :=
  ⟨(tokenize_terminates (fun e => decide ('$' ∈ e)) id (fun e he => by simp [he])
      ['l', 's', ' ', DQUOTE, 'a', ' ', 'b', DQUOTE, ' ', SQUOTE, 'c'] 13
      (by decide) (by decide)).1,
   (tokenize_terminates (fun e => decide ('$' ∈ e)) id (fun e he => by simp [he])
      ['l', 's', ' ', DQUOTE, 'a', ' ', 'b', DQUOTE, ' ', SQUOTE, 'c'] 13
      (by decide) (by decide)).2.1⟩

/-- C18: a run given by `get_element` that stops before the end of the line
(at a space) passes the check of `count_del_quotes`; hence, on a line without
variable, every run that `tokenize` appends, the last one apart, passes it. -/
theorem get_element_quotes_checked :
    (∀ line : List Char, compute_len line < line.length →
        (∃ tl, line.drop (compute_len line) = ' ' :: tl)
          ∧ ∃ n, count_del_quotes (get_element line) = Outcome.ret n)
      ∧ (∀ (hv : List Char → Bool) (ril : List Char → List Char) (line : List Char)
          (fuel : Nat), (∀ e, '$' ∉ e → hv e = false) → '$' ∉ line → line.length < fuel →
          ∃ raw, tokenize_loop hv ril fuel line [] = Outcome.ret raw
            ∧ ∀ r ∈ raw.dropLast, ∃ n, count_del_quotes r.element = Outcome.ret n) := by
  constructor
  · intro line h
    exact ⟨drop_compute_len_head line h, _,
      count_del_quotes_balanced _ (get_element_balanced line h)⟩
  · intro hv ril line fuel hhv hvar hf
    obtain ⟨raw, h1, h2⟩ :=
      tokenize_loop_runs_but_last hv ril hhv line.length line [] fuel (le_refl _) hvar hf
    rw [List.nil_append] at h1
    exact ⟨raw, h1, fun r hr => ⟨_, count_del_quotes_balanced _ (h2 r hr)⟩⟩

/-! ## Memory safety of `clean_up_quotes` -/

/-- The reads of the inner loop, started inside a span that is closed before
the end of the element, stay before the terminating NUL. -/
theorem clean_up_quotes_copy_reads_lt (element : List Char) (size : Nat) (q : Char)
    (mid : List Char) : ∀ (pre post : List Char) (s : clean_state) (fuel : Nat),
    element = pre ++ mid ++ q :: post → q ∉ mid → s.i = pre.length → s.j < s.i →
    s.j + mid.length ≤ size →
    ∀ k ∈ clean_up_quotes_copy_reads element size q fuel s, k < element.length := by
  induction mid with
  | nil =>
    intro pre post s fuel he _ hi hj _ k hk
    cases fuel with
    | zero => simp [clean_up_quotes_copy_reads] at hk
    | succ f =>
      have hlen : s.j < element.length := by rw [he]; simp; omega
      have hilen : s.i < element.length := by rw [he]; simp; omega
      obtain ⟨cj, hcj⟩ := read_at_lt element s.j hlen
      have hci : read_at element s.i = Cell.chr q := by
        rw [he, hi]; simpa using read_at_append_cons pre q post
      rw [clean_up_quotes_copy_reads, hcj] at hk
      simp only [hci, if_true] at hk
      simp only [List.mem_cons, List.mem_singleton, List.not_mem_nil, or_false] at hk
      rcases hk with rfl | rfl <;> assumption
  | cons c mid ih =>
    intro pre post s fuel he hq hi hj hsz k hk
    cases fuel with
    | zero => simp [clean_up_quotes_copy_reads] at hk
    | succ f =>
      have hlen : s.j < element.length := by rw [he]; simp; omega
      have hilen : s.i < element.length := by rw [he]; simp; omega
      obtain ⟨cj, hcj⟩ := read_at_lt element s.j hlen
      have hci : read_at element s.i = Cell.chr c := by
        rw [he, hi]; simpa using read_at_append_cons pre c (mid ++ q :: post)
      have hcq : c ≠ q := fun hc => hq (by simp [hc])
      have hput : s.put size c = Outcome.ret
          { i := s.i + 1, j := s.j + 1, new_element := s.new_element ++ [c] } := by
        simp at hsz
        simp [clean_state.put]; omega
      rw [clean_up_quotes_copy_reads, hcj] at hk
      simp only [hci, if_neg hcq, hput] at hk
      rcases List.mem_cons.mp hk with rfl | hk
      · exact hlen
      · rcases List.mem_cons.mp hk with rfl | hk
        · exact hilen
        · exact ih (pre ++ [c]) post _ f (by simp [he]) (fun hm => hq (by simp [hm]))
            (by simp [hi]) (by simp; omega) (by simp at hsz ⊢; omega) k hk

/-- The reads of the inner loops during a run of the outer loop, started at
the beginning of a suffix that ends outside every quoted span, stay before
the terminating NUL. -/
theorem clean_up_quotes_loop_reads_lt (element : List Char) (size : Nat) :
    ∀ (n : Nat) (rest pre : List Char) (s : clean_state) (fuel : Nat),
    rest.length ≤ n → element = pre ++ rest → s.i = pre.length → s.j ≤ s.i →
    quote_state QuoteState.outside rest = QuoteState.outside →
    s.j + (strip_delimiters QuoteState.outside rest).length ≤ size →
    rest.length < fuel →
    ∀ k ∈ clean_up_quotes_loop_reads element size fuel s, k < element.length := by
  intro n
  induction n with
  | zero =>
    intro rest pre s fuel hn he hi _ _ _ hf k hk
    obtain ⟨f, rfl⟩ : ∃ f, fuel = f + 1 := ⟨fuel - 1, by omega⟩
    have hr : rest = [] := List.length_eq_zero.mp (by omega)
    subst hr
    have hnul : read_at element s.i = Cell.nul := by
      rw [hi, he]; simpa using read_at_length pre
    rw [clean_up_quotes_loop_reads, hnul] at hk
    simp at hk
  | succ n ih =>
    intro rest pre s fuel hn he hi hj hbal hsz hf k hk
    obtain ⟨f, rfl⟩ : ∃ f, fuel = f + 1 := ⟨fuel - 1, by omega⟩
    cases rest with
    | nil =>
      have hnul : read_at element s.i = Cell.nul := by
        rw [hi, he]; simpa using read_at_length pre
      rw [clean_up_quotes_loop_reads, hnul] at hk
      simp at hk
    | cons c rest =>
      have hci : read_at element s.i = Cell.chr c := by
        rw [he, hi]; exact read_at_append_cons pre c rest
      simp only [List.length_cons] at hn hf
      rw [clean_up_quotes_loop_reads, hci] at hk
      simp only at hk
      by_cases hs : c = SQUOTE
      · subst hs
        have hb : quote_state QuoteState.in_single rest = QuoteState.outside := by
          simpa [quote_state_cons, quote_step] using hbal
        obtain ⟨mid, post, h1, h2, h3, h4⟩ := quote_span_split_single rest hb
        have hstrip : strip_delimiters QuoteState.outside (SQUOTE :: rest)
            = mid ++ strip_delimiters QuoteState.outside post := by
          rw [strip_delimiters]; simp [is_delimiter, quote_step, h4]
        rw [hstrip] at hsz
        have hlen : rest.length = mid.length + post.length + 1 := by
          rw [h1]; simp; omega
        rw [if_pos rfl, clean_up_quotes_copy_spec element size SQUOTE mid
          (pre ++ [SQUOTE]) post _ f (by simp [he, h1]) h2 (by simp [hi])
          (by simp; omega) (by simp at hsz ⊢; omega) (by omega)] at hk
        rcases List.mem_append.mp hk with hk | hk
        · exact clean_up_quotes_copy_reads_lt element size SQUOTE mid (pre ++ [SQUOTE]) post
            _ f (by simp [he, h1]) h2 (by simp [hi]) (by simp; omega)
            (by simp at hsz ⊢; omega) k hk
        · exact ih post (pre ++ SQUOTE :: mid ++ [SQUOTE]) _ f (by omega) (by simp [he, h1])
            (by simp [hi]; omega) (by simp; omega) h3 (by simp at hsz ⊢; omega) (by omega)
            k hk
      · by_cases hd : c = DQUOTE
        · subst hd
          have hb : quote_state QuoteState.in_double rest = QuoteState.outside := by
            simpa [quote_state_cons, quote_step, hs] using hbal
          obtain ⟨mid, post, h1, h2, h3, h4⟩ := quote_span_split_double rest hb
          have hstrip : strip_delimiters QuoteState.outside (DQUOTE :: rest)
              = mid ++ strip_delimiters QuoteState.outside post := by
            rw [strip_delimiters]; simp [is_delimiter, quote_step, h4, hs]
          rw [hstrip] at hsz
          have hlen : rest.length = mid.length + post.length + 1 := by
            rw [h1]; simp; omega
          rw [if_neg hs, if_pos rfl, clean_up_quotes_copy_spec element size DQUOTE mid
            (pre ++ [DQUOTE]) post _ f (by simp [he, h1]) h2 (by simp [hi])
            (by simp; omega) (by simp at hsz ⊢; omega) (by omega)] at hk
          rcases List.mem_append.mp hk with hk | hk
          · exact clean_up_quotes_copy_reads_lt element size DQUOTE mid (pre ++ [DQUOTE])
              post _ f (by simp [he, h1]) h2 (by simp [hi]) (by simp; omega)
              (by simp at hsz ⊢; omega) k hk
          · exact ih post (pre ++ DQUOTE :: mid ++ [DQUOTE]) _ f (by omega)
              (by simp [he, h1]) (by simp [hi]; omega) (by simp; omega) h3
              (by simp at hsz ⊢; omega) (by omega) k hk
        · have hb : quote_state QuoteState.outside rest = QuoteState.outside := by
            simpa [quote_state_cons, quote_step, hs, hd] using hbal
          have hstrip : strip_delimiters QuoteState.outside (c :: rest)
              = c :: strip_delimiters QuoteState.outside rest := by
            rw [strip_delimiters]; simp [is_delimiter, quote_step, hs, hd]
          rw [hstrip] at hsz
          have hput : s.put size c = Outcome.ret
              { i := s.i + 1, j := s.j + 1, new_element := s.new_element ++ [c] } := by
            simp at hsz
            simp [clean_state.put]; omega
          rw [if_neg hs, if_neg hd, hput] at hk
          exact ih rest (pre ++ [c]) _ f (by omega) (by simp [he])
            (by simp [hi]) (by simp; omega) hb (by simp at hsz ⊢; omega) (by omega) k hk

/-- C19: when `count_del_quotes` returns `n` on an element, the loops of
`clean_up_quotes`, run in a buffer of `strlen(element) - n + 1` bytes, write
`strlen(element) - n` characters and then the NUL inside the buffer; every
index read by the guard of an inner loop is before the terminating NUL; and an
inner loop started inside a span stops on the quote that closes it, which is
before the end of the element. -/
theorem clean_up_quotes_within_bounds (element : List Char) (n : Nat)
    (h : count_del_quotes element = Outcome.ret n) :
    (∃ s, clean_up_quotes_loop element (element.length - n + 1) (element.length + 2)
            { i := 0, j := 0, new_element := [] } = Outcome.ret s
        ∧ s.j = element.length - n
        ∧ s.new_element.length = element.length - n
        ∧ s.j < element.length - n + 1
        ∧ clean_up_quotes element = Outcome.ret s.new_element)
      ∧ (∀ k ∈ clean_up_quotes_inner_reads element, k < element.length)
      ∧ (∀ (pre mid post : List Char) (q : Char) (s : clean_state) (fuel : Nat),
          element = pre ++ mid ++ q :: post → q ∉ mid → s.i = pre.length → s.j < s.i →
          s.j + mid.length ≤ element.length - n + 1 → mid.length < fuel →
          ∃ s1, clean_up_quotes_copy element (element.length - n + 1) q fuel s
              = Outcome.ret s1
            ∧ s1.i < element.length ∧ read_at element s1.i = Cell.chr q) := by
  have hbal := count_del_quotes_ret_balanced element n h
  have hn : n = count_delimiters QuoteState.outside element := by
    rw [count_del_quotes_balanced element hbal] at h
    exact (Outcome.ret.inj h).symm
  have hlen := strip_delimiters_length element QuoteState.outside
  rw [← hn] at hlen
  have hloop := clean_up_quotes_loop_spec element (element.length - n + 1) element.length
    element [] { i := 0, j := 0, new_element := [] } (element.length + 2) (le_refl _)
    (by simp) (by simp) (by simp) hbal (by simp; omega) (by omega)
  refine ⟨⟨_, hloop, by simp; omega, by simp; omega, by simp; omega, ?_⟩, ?_, ?_⟩
  · rw [clean_up_quotes_balanced element hbal]
    simp
  · intro k hk
    rw [clean_up_quotes_inner_reads, h] at hk
    exact clean_up_quotes_loop_reads_lt element (element.length - n + 1) element.length
      element [] { i := 0, j := 0, new_element := [] } (element.length + 2) (le_refl _)
      (by simp) (by simp) (by simp) hbal (by simp; omega) (by omega) k hk
  · intro pre mid post q s fuel he hq hi hj hsz hf
    refine ⟨_, clean_up_quotes_copy_spec element (element.length - n + 1) q mid pre post s
      fuel he hq hi hj hsz hf, ?_, ?_⟩
    · rw [he, hi]; simp
    · have := read_at_append_cons (pre ++ mid) q post
      simp only [List.length_append] at this
      rw [he, hi]
      simpa using this

/-- Witness of C19 on the element `"it's"'a"b'`. -/
theorem clean_up_quotes_within_bounds_witness :
    count_del_quotes [DQUOTE, 'i', 't', SQUOTE, 's', DQUOTE, SQUOTE, 'a', DQUOTE, 'b', SQUOTE]
        = Outcome.ret 4
      ∧ ∀ k ∈ clean_up_quotes_inner_reads
          [DQUOTE, 'i', 't', SQUOTE, 's', DQUOTE, SQUOTE, 'a', DQUOTE, 'b', SQUOTE],
        k < 11 :=
  ⟨by decide,
   (clean_up_quotes_within_bounds
      [DQUOTE, 'i', 't', SQUOTE, 's', DQUOTE, SQUOTE, 'a', DQUOTE, 'b', SQUOTE] 4
      (by decide)).2.1⟩

end Minishell
